import Mathlib

/-!
# Verification of the Ramses-Py file naming and versioning core

This file is a shallow embedding of `ramses/file_manager.py` (class
`RamFileManager`), together with theorems settling the specification
claims about the naming codec and the version-history scans.

Modelling notes:

* Python strings are modelled as Lean `String` / `List Char`.  The regular
  expression built by `_getRamsesNameRegEx` is embedded as a backtracking
  matcher specialised to that pattern: each combinator below implements the
  exact Python `re` search order (greedy repetition preferring the longest
  capture, ordered alternation, optional groups trying the present branch
  first, a negative lookahead, and `$` accepting the end of the string or a
  final newline).  `re.IGNORECASE` is modelled by ASCII case folding; the
  few non-ASCII Unicode case foldings Python would additionally admit are
  immaterial to the claims (all captures are kept verbatim).
* Filesystem interaction (`os.listdir`, `os.path.isfile`,
  `os.path.getmtime`, `datetime.now`) is modelled by a record of pure
  functions `RamsesFs`; `shutil.copy2` and `os.makedirs` only have side
  effects, so the functions return the path they would write to.
* Python exceptions (`TypeError` from subscripting or concatenating
  `None`, the explicit `raise` for a missing file) are modelled with
  `Except PyErr`.
-/

/-! ## Character classes of the regular expression -/

/-- Decimal digit, the class `[0-9]` (code points 48–57). -/
def isDigitChar (c : Char) : Bool := 48 ≤ c.toNat && c.toNat ≤ 57

/-- ASCII letter; `[a-z]` under `re.IGNORECASE` (code points 65–90 and
97–122). -/
def isLetterChar (c : Char) : Bool :=
  (65 ≤ c.toNat && c.toNat ≤ 90) || (97 ≤ c.toNat && c.toNat ≤ 122)

/-- The class `[a-z0-9+-]` under `re.IGNORECASE` (project, object and step
short names). -/
def isIdChar (c : Char) : Bool :=
  isLetterChar c || isDigitChar c || c = '+' || c = '-'

/-- Python `\s` (ASCII part: space, tab, newline, carriage return, vertical
tab, form feed). -/
def isSpaceChar (c : Char) : Bool :=
  c = ' ' || c = '\t' || c = '\n' || c = '\r' || c = '\x0b' || c = '\x0c'

/-- The class `[a-z0-9+\s-]` under `re.IGNORECASE` (resource block). -/
def isResChar (c : Char) : Bool := isIdChar c || isSpaceChar c

/-- The class `[a-z0-9.]` under `re.IGNORECASE` (extension block). -/
def isExtChar (c : Char) : Bool :=
  isLetterChar c || isDigitChar c || c = '.'

/-- ASCII lower-casing (code points 65–90 map to 97–122), the case
folding `re.IGNORECASE` applies to this grammar. -/
def lowerChar (c : Char) : Char :=
  if 65 ≤ c.toNat ∧ c.toNat ≤ 90 then Char.ofNat (c.toNat + 32) else c

/-- ASCII-case-insensitive character comparison (`re.IGNORECASE`). -/
def icaseEqChar (a b : Char) : Bool := lowerChar a = lowerChar b

/-- `[AS]` under `re.IGNORECASE`. -/
def isASChar (c : Char) : Bool := icaseEqChar c 'A' || icaseEqChar c 'S'

/-- `(G)` under `re.IGNORECASE`. -/
def isGChar (c : Char) : Bool := icaseEqChar c 'G'

/-! ## The version-prefix alternation

`_getVersionRegExStr` builds the alternation from
`ramses.settings().versionPrefixes` plus the short names of all states.
The modules defining them (`ramses.py`, the settings field) are not part
of the sources here, so the fixed part is modelled from the spec. -/

/-- Modelled from the spec: the fixed auxiliary version prefixes supplied
by the settings (`versionPrefixes`); the spec names a generic `v` and the
docstrings give `pub` as the other non-state example. -/
def versionPrefixes : List String := ["v", "pub"]

/-- The short names of the default states, from
`RamSettings.defaultStates` (`ramSettings.py`). -/
def stateShortNames : List String := ["NO", "TODO", "WIP", "OK"]

/-- The tokens of the alternation built by `_getVersionRegExStr`, in the
order the Python code assembles them (settings prefixes first, then the
state short names). -/
def versionPrefixTokens : List (List Char) :=
  (versionPrefixes ++ stateShortNames).map String.toList

/-! ## Backtracking matcher combinators

These implement the Python `re` engine's search order for the pieces of
the pattern; every combinator takes a continuation receiving the captured
characters and the remaining input, so that backtracking is global. -/

/-- Case-insensitive literal token match.  On success returns the input
characters that were consumed (the capture is verbatim input, as in
Python) and the rest. -/
def icasePrefix : List Char → List Char → Option (List Char × List Char)
  | [], l => some ([], l)
  | _ :: _, [] => none
  | t :: ts, c :: l =>
    if icaseEqChar t c then
      match icasePrefix ts l with
      | some (cap, rest) => some (c :: cap, rest)
      | none => none
    else none

/-- First-match-wins choice (the regex engine's ordered preference). -/
def orElseO {A : Type} (a b : Option A) : Option A :=
  match a with
  | some r => some r
  | none => b

/-- Greedy `cls+` after at least one accepted character: extends the
capture as far as possible first and gives characters back one at a time
when the continuation fails. -/
def reMatchPlusAux {A : Type} (cls : Char → Bool) (acc : List Char) :
    List Char → (List Char → List Char → Option A) → Option A
  | [], k => k acc.reverse []
  | c :: l, k =>
    if cls c then
      orElseO (reMatchPlusAux cls (c :: acc) l k) (k acc.reverse (c :: l))
    else k acc.reverse (c :: l)

/-- Greedy `cls+`. -/
def reMatchPlus {A : Type} (cls : Char → Bool) :
    List Char → (List Char → List Char → Option A) → Option A
  | [], _ => none
  | c :: l, k => if cls c then reMatchPlusAux cls [c] l k else none

/-- Greedy bounded repetition, the tail of `cls{1,n}` (up to `fuel` more
characters). -/
def reMatchRepAux {A : Type} (cls : Char → Bool) :
    Nat → List Char → List Char → (List Char → List Char → Option A) → Option A
  | 0, acc, l, k => k acc.reverse l
  | _ + 1, acc, [], k => k acc.reverse []
  | fuel + 1, acc, c :: l, k =>
    if cls c then
      orElseO (reMatchRepAux cls fuel (c :: acc) l k) (k acc.reverse (c :: l))
    else k acc.reverse (c :: l)

/-- Greedy `cls{1,maxLen}`. -/
def reMatchRep1 {A : Type} (cls : Char → Bool) (maxLen : Nat) :
    List Char → (List Char → List Char → Option A) → Option A
  | [], _ => none
  | c :: l, k => if cls c then reMatchRepAux cls (maxLen - 1) [c] l k else none

/-- Ordered alternation over the version-prefix tokens (the capturing
group `(v|pub|NO|TODO|WIP|OK)`): tries each token in order, and moves to
the next token when the continuation fails. -/
def reMatchAlt {A : Type} :
    List (List Char) → List Char → (List Char → List Char → Option A) → Option A
  | [], _, _ => none
  | t :: ts, l, k =>
    match icasePrefix t l with
    | some (cap, rest) => orElseO (k cap rest) (reMatchAlt ts l k)
    | none => reMatchAlt ts l k

/-- Whether the input starts with a digit. -/
def startsWithDigit : List Char → Bool
  | c :: _ => isDigitChar c
  | [] => false

/-- The lookahead body `(?:v|pub|NO|TODO|WIP|OK)?[0-9]+` has a match at
this position: either a digit comes first, or some prefix token matches
(case-insensitively) and is followed by a digit. -/
def lookVersionStart (toks : List (List Char)) (l : List Char) : Bool :=
  startsWithDigit l ||
    toks.any (fun t =>
      match icasePrefix t l with
      | some (_, rest) => startsWithDigit rest
      | none => false)

/-- Python's `$` (no `re.MULTILINE`): end of input, or a final newline. -/
def reDollar (l : List Char) : Bool := l = [] || l = ['\n']

/-! ## The full pattern

```
^([a-z0-9+-]{1,10})_(?:([AS])_([a-z0-9+-]{1,10})|(G))_([a-z0-9+-]{1,10})
 (?:_((?!(?:v|pub|NO|TODO|WIP|OK)?[0-9]+)[a-z0-9+\s-]+))?
 (?:_((?:v|pub|NO|TODO|WIP|OK))?([0-9]+))?\.([a-z0-9.]+)$
```
compiled with `re.IGNORECASE`, groups numbered 1–9. -/

/-- The capture groups of a successful match of `_getRamsesNameRegEx`. -/
structure RamsesGroups where
  g1 : List Char
  g2 : Option (List Char)
  g3 : Option (List Char)
  g4 : Option (List Char)
  g5 : List Char
  g6 : Option (List Char)
  g7 : Option (List Char)
  g8 : Option (List Char)
  g9 : List Char
deriving DecidableEq

/-- The alternation `(?:([AS])_([a-z0-9+-]{1,10})|(G))`; the `[AS]` branch
is tried first, as written in the pattern. -/
def matchTypeBlock (l : List Char)
    (k : Option (List Char) → Option (List Char) → Option (List Char) →
      List Char → Option RamsesGroups) : Option RamsesGroups :=
  orElseO
    (match l with
     | c :: l2 =>
       if isASChar c then
         match l2 with
         | '_' :: l3 =>
           reMatchRep1 isIdChar 10 l3 (fun obj rest => k (some [c]) (some obj) none rest)
         | _ => none
       else none
     | [] => none)
    (match l with
     | c :: l2 => if isGChar c then k none none (some [c]) l2 else none
     | [] => none)

/-- The optional resource group
`(?:_((?!(?:v|pub|NO|TODO|WIP|OK)?[0-9]+)[a-z0-9+\s-]+))?`: the present
branch (guarded by the negative lookahead) is tried first. -/
def matchResourceTail (l : List Char)
    (k : Option (List Char) → List Char → Option RamsesGroups) : Option RamsesGroups :=
  orElseO
    (match l with
     | '_' :: l2 =>
       if lookVersionStart versionPrefixTokens l2 then none
       else reMatchPlus isResChar l2 (fun cap rest => k (some cap) rest)
     | _ => none)
    (k none l)

/-- The optional version group `(?:_((?:v|pub|NO|TODO|WIP|OK))?([0-9]+))?`:
present branch first, and inside it the captured prefix is tried before
the bare-digit reading. -/
def matchVersionTail (l : List Char)
    (k : Option (List Char) → Option (List Char) → List Char → Option RamsesGroups) :
    Option RamsesGroups :=
  orElseO
    (match l with
     | '_' :: l2 =>
       orElseO
         (reMatchAlt versionPrefixTokens l2 (fun sCap rest =>
           reMatchPlus isDigitChar rest (fun dCap rest2 => k (some sCap) (some dCap) rest2)))
         (reMatchPlus isDigitChar l2 (fun dCap rest2 => k none (some dCap) rest2))
     | _ => none)
    (k none none l)

/-- `re.match(_getRamsesNameRegEx(), ·)`: the whole pattern, anchored at
the start, returning the nine capture groups. -/
def matchRamsesName (l : List Char) : Option RamsesGroups :=
  reMatchRep1 isIdChar 10 l (fun proj r1 =>
    match r1 with
    | '_' :: r2 =>
      matchTypeBlock r2 (fun g2 g3 g4 r3 =>
        match r3 with
        | '_' :: r4 =>
          reMatchRep1 isIdChar 10 r4 (fun stepCap r5 =>
            matchResourceTail r5 (fun g6 r6 =>
              matchVersionTail r6 (fun g7 g8 r7 =>
                match r7 with
                | '.' :: r8 =>
                  reMatchPlus isExtChar r8 (fun extCap r9 =>
                    if reDollar r9 then
                      some ⟨proj, g2, g3, g4, stepCap, g6, g7, g8, extCap⟩
                    else none)
                | _ => none)))
        | _ => none)
    | _ => none)

/-! ## `decomposeRamsesFileName` -/

/-- The dictionary returned by `decomposeRamsesFileName`.  `ramType` is an
`Option` because the code assigns `splitRamsesName.group(4)` — which is
Python `None` when the `[AS]` branch matched — whenever group 2 is not
exactly `'A'` or `'S'` (a case-sensitive comparison, although the regex is
case-insensitive). -/
structure RamsesFileBlocks where
  projectID : String
  ramType : Option String
  objectShortName : String
  ramStep : String
  resourceStr : String
  state : String
  version : Int
  extension : String
deriving DecidableEq

/-- Python `int` on a (non-empty) string of decimal digits. -/
def digitsVal (l : List Char) : Int :=
  l.foldl (fun a c => a * 10 + Int.ofNat (c.toNat - 48)) 0

/-- `RamFileManager.decomposeRamsesFileName`, for string input (the
`type(...) != str` guard is modelled by `decomposeRamsesFileNameDyn`
below). -/
def decomposeRamsesFileName (ramsesFileName : String) : Option RamsesFileBlocks :=
  match matchRamsesName ramsesFileName.toList with
  | none => none
  | some g =>
    let g2s : Option String := g.g2.map (fun c => String.mk c)
    let isAS : Bool := g2s = some "A" || g2s = some "S"
    some
      { projectID := String.mk g.g1
        ramType := if isAS then g2s else g.g4.map (fun c => String.mk c)
        objectShortName := if isAS then String.mk (g.g3.getD []) else ""
        ramStep := String.mk g.g5
        resourceStr := String.mk (g.g6.getD [])
        state := String.mk (g.g7.getD [])
        version := match g.g8 with | none => -1 | some d => digitsVal d
        extension := String.mk g.g9 }

/-- A dynamically-typed Python value, as far as the sources inspect one. -/
inductive PyVal where
  | pyStr (s : String)
  | pyInt (n : Int)
  | pyNone
deriving DecidableEq

/-- The Python exceptions raised by the modelled code. -/
inductive PyErr where
  | typeError
  | missingFile
deriving DecidableEq

/-- `decomposeRamsesFileName` including its
`if type(ramsesFileName) != str: raise TypeError(...)` guard. -/
def decomposeRamsesFileNameDyn : PyVal → Except PyErr (Option RamsesFileBlocks)
  | .pyStr s => .ok (decomposeRamsesFileName s)
  | _ => .error .typeError

/-! ## `buildRamsesFileName` and its helpers -/

/-- The character remap table of `_fixResourceStr` (the loop body is a
character-wise map). -/
def fixChar (c : Char) : Char :=
  if c = '"' then ' '
  else if c = '_' then '-'
  else if c = '[' then '-'
  else if c = ']' then '-'
  else if c = '\x7b' then '-'
  else if c = '\x7d' then '-'
  else if c = '(' then '-'
  else if c = ')' then '-'
  else if c = '\'' then ' '
  else if c = '`' then ' '
  else if c = '.' then '-'
  else if c = '/' then '-'
  else if c = '\\' then '-'
  else if c = ',' then ' '
  else c

/-- `RamFileManager._fixResourceStr`. -/
def fixResourceStr (resourceStr : String) : String :=
  String.mk (resourceStr.toList.map fixChar)

/-- Digit accumulator for `natDigits`; the fuel argument only serves
structural termination and never runs out when it starts at least at the
number itself plus one. -/
def natDigitsAux : Nat → Nat → List Char → List Char
  | 0, _, acc => acc
  | fuel + 1, n, acc =>
    if n < 10 then Char.ofNat (48 + n) :: acc
    else natDigitsAux fuel (n / 10) (Char.ofNat (48 + n % 10) :: acc)

/-- The decimal digits of a natural number, most significant first. -/
def natDigits (n : Nat) : List Char := natDigitsAux (n + 1) n []

/-- Modelled from the spec: `utils.intToStr` (the module `utils.py` is not
among the sources) renders the version number as its decimal digits for
the version block of a file name. -/
def intToStr (i : Int) : String :=
  if i < 0 then "-" ++ String.mk (natDigits i.natAbs) else String.mk (natDigits i.toNat)

/-- Python's `ext.startswith('.')`: the first character is a dot. -/
def strStartsWithDot (ext : String) : Bool :=
  match ext.toList with
  | c :: _ => c = '.'
  | [] => false

/-- Modelled from the spec: the single-letter item type tokens `A`, `S`,
`G` (the module defining `ItemType` is not among the sources; the spec
fixes TYPE ∈ {G, A, S}). -/
def ItemTypeASSET : String := "A"

def ItemTypeSHOT : String := "S"

def ItemTypeGENERAL : String := "G"

/-- `RamFileManager.buildRamsesFileName`.  All arguments are explicit; the
Python defaults are `ramType = ItemType.GENERAL`, `objectShortName = ""`,
`resourceStr = ""`, `version = -1`, and `"v"` for the last argument (named
`version_` `prefix` in the source). -/
def buildRamsesFileName (project stepName ext : String) (ramType : String)
    (objectShortName : String) (resourceStr : String) (version : Int)
    (versionPfx : String) : String :=
  let resourceStr := fixResourceStr resourceStr
  let n := project ++ "_" ++ ramType
  let n := if ramType = ItemTypeASSET ∨ ramType = ItemTypeSHOT then
    n ++ "_" ++ objectShortName else n
  let n := n ++ "_" ++ stepName
  let n := if resourceStr ≠ "" then n ++ "_" ++ resourceStr else n
  let n := if version ≠ -1 then n ++ "_" ++ versionPfx ++ intToStr version else n
  if ext ≠ "" then
    n ++ (if strStartsWithDot ext then ext else "." ++ ext)
  else n

/-! ## POSIX path helpers (`os.path.basename` / `os.path.dirname`) -/

/-- `os.path.basename` (POSIX): everything after the last `/`. -/
def pathBasename (p : String) : String :=
  String.mk ((p.toList.reverse.takeWhile (fun c => c ≠ '/')).reverse)

/-- `os.path.dirname` (POSIX): everything before the last `/`, with
trailing separators stripped unless the head consists only of them. -/
def pathDirname (p : String) : String :=
  let rev := p.toList.reverse
  let tl := rev.takeWhile (fun c => c ≠ '/')
  let headRev := rev.drop tl.length
  if headRev.all (fun c => c = '/') then String.mk headRev.reverse
  else String.mk ((headRev.dropWhile (fun c => c = '/')).reverse)

/-! ## Reserved folder classification (`FolderNames`, `in*Folder`) -/

/-- `FolderNames.versions` (`ramSettings.py`). -/
def folderNamesVersions : String := "_versions"

/-- `FolderNames.publish` (`ramSettings.py`). -/
def folderNamesPublish : String := "_published"

/-- `FolderNames.preview` (`ramSettings.py`). -/
def folderNamesPreview : String := "_preview"

/-- `RamFileManager.inVersionsFolder`. -/
def inVersionsFolder (path : String) : Bool :=
  pathBasename (pathDirname path) = folderNamesVersions

/-- `RamFileManager.inPublishFolder`. -/
def inPublishFolder (path : String) : Bool :=
  pathBasename (pathDirname path) = folderNamesPublish

/-- `RamFileManager.inPreviewFolder`. -/
def inPreviewFolder (path : String) : Bool :=
  pathBasename (pathDirname path) = folderNamesPreview

/-- `RamFileManager.inReservedFolder`. -/
def inReservedFolder (path : String) : Bool :=
  let currentFolderName := pathBasename (pathDirname path)
  currentFolderName = folderNamesVersions ||
    currentFolderName = folderNamesPublish ||
    currentFolderName = folderNamesPreview

/-- `RamFileManager.getVersionFolder` (the `os.makedirs` side effect is
dropped; the returned path is computed purely). -/
def getVersionFolder (filePath : String) : String :=
  let fileFolder := pathDirname filePath
  if inVersionsFolder filePath then fileFolder
  else if inPublishFolder filePath || inPreviewFolder filePath then
    pathDirname fileFolder ++ "/" ++ folderNamesVersions
  else fileFolder ++ "/" ++ folderNamesVersions

/-! ## The filesystem model -/

/-- The filesystem as the version-history code observes it:
`os.listdir`, `os.path.isfile`, `os.path.getmtime` (as an integer
timestamp) and the current time `datetime.now()`. -/
structure RamsesFs where
  listdir : String → List String
  isfile : String → Bool
  mtime : String → Int
  now : Int

/-! ## `getLatestVersionFilePath` -/

/-- The scan loop of `getLatestVersionFilePath` over the listed entries,
carrying `highestVersion`, `versionFilePath` and `prevVersionFilePath`.
When the reference name failed to decompose (`dRef = none`) the Python
code still enters the loop and raises `TypeError` at
`decomposedFileName['projectID']` on the first decomposable regular
file. -/
def latestScan (fs : RamsesFs) (versionsFolder : String)
    (dRef : Option RamsesFileBlocks) :
    List String → Int → String → String → Except PyErr (Int × String × String)
  | [], h, v, p => .ok (h, v, p)
  | f :: rest, h, v, p =>
    if fs.isfile (versionsFolder ++ "/" ++ f) = false then
      latestScan fs versionsFolder dRef rest h v p
    else
      match decomposeRamsesFileName f with
      | none => latestScan fs versionsFolder dRef rest h v p
      | some d =>
        match dRef with
        | none => .error .typeError
        | some r =>
          if d.projectID ≠ r.projectID then latestScan fs versionsFolder dRef rest h v p
          else if d.ramType ≠ r.ramType then latestScan fs versionsFolder dRef rest h v p
          else if d.objectShortName ≠ r.objectShortName then
            latestScan fs versionsFolder dRef rest h v p
          else if d.ramStep ≠ r.ramStep then latestScan fs versionsFolder dRef rest h v p
          else if d.resourceStr ≠ r.resourceStr then latestScan fs versionsFolder dRef rest h v p
          else if d.version = -1 then latestScan fs versionsFolder dRef rest h v p
          else if d.version > h then
            latestScan fs versionsFolder dRef rest d.version (versionsFolder ++ "/" ++ f) v
          else latestScan fs versionsFolder dRef rest h v p

/-- `RamFileManager.getLatestVersionFilePath`. -/
def getLatestVersionFilePath (fs : RamsesFs) (filePath : String) (previous : Bool) :
    Except PyErr String :=
  let fileName := pathBasename filePath
  let decomposedFileName := decomposeRamsesFileName fileName
  let versionsFolder := getVersionFolder filePath
  match latestScan fs versionsFolder decomposedFileName (fs.listdir versionsFolder) 0 "" "" with
  | .error e => .error e
  | .ok (_, v, p) => .ok (if previous then p else v)

/-- `RamFileManager.getLatestVersion`; the `datetime` value is modelled as
the integer timestamp it is built from. -/
def getLatestVersion (fs : RamsesFs) (filePath : String)
    (defaultStateShortName : String) (previous : Bool) :
    Except PyErr (Int × String × Int) :=
  match getLatestVersionFilePath fs filePath previous with
  | .error e => .error e
  | .ok latestVersionFilePath =>
    if latestVersionFilePath = "" then .ok (0, defaultStateShortName, fs.now)
    else
      match decomposeRamsesFileName (pathBasename latestVersionFilePath) with
      | none => .ok (0, defaultStateShortName, fs.now)
      | some d => .ok (d.version, d.state, fs.mtime latestVersionFilePath)

/-! ## `getVersionFilePaths` -/

/-- The collection loop of `getVersionFilePaths`: keeps, in listing
order, the full paths of the regular files whose decomposed name agrees
with the reference on the five lineage fields (note: no check on
`version` here, unlike `latestScan`). -/
def collectScan (fs : RamsesFs) (versionsFolder : String)
    (dRef : Option RamsesFileBlocks) : List String → Except PyErr (List String)
  | [] => .ok []
  | f :: rest =>
    if fs.isfile (versionsFolder ++ "/" ++ f) = false then
      collectScan fs versionsFolder dRef rest
    else
      match decomposeRamsesFileName f with
      | none => collectScan fs versionsFolder dRef rest
      | some d =>
        match dRef with
        | none => .error .typeError
        | some r =>
          if d.projectID ≠ r.projectID then collectScan fs versionsFolder dRef rest
          else if d.ramType ≠ r.ramType then collectScan fs versionsFolder dRef rest
          else if d.objectShortName ≠ r.objectShortName then collectScan fs versionsFolder dRef rest
          else if d.ramStep ≠ r.ramStep then collectScan fs versionsFolder dRef rest
          else if d.resourceStr ≠ r.resourceStr then collectScan fs versionsFolder dRef rest
          else
            match collectScan fs versionsFolder dRef rest with
            | .error e => .error e
            | .ok l => .ok ((versionsFolder ++ "/" ++ f) :: l)

/-- `RamFileManager._versionFilesSorter`: the sort key is the decoded
integer version of the basename.  For the files collected by
`getVersionFilePaths` the decomposition always succeeds; Python would
raise on the `none` branch, which is therefore unreachable there. -/
def versionFilesSorterKey (f : String) : Int :=
  match decomposeRamsesFileName (pathBasename f) with
  | some d => d.version
  | none => 0

/-- Stable insertion into a sorted list: the element is placed before the
first entry whose key is at least as large.  Since `pyListSort` folds from
the right, an element always lands before the equal-keyed elements that
followed it in the original listing, which is Python's stability
guarantee. -/
def insertByKey (key : String → Int) (x : String) : List String → List String
  | [] => [x]
  | y :: ys => if key x ≤ key y then x :: y :: ys else y :: insertByKey key x ys

/-- Python's `list.sort(key=...)`: stable, ascending by key.  Any stable
ascending sort computes the same list, so insertion sort models it
exactly. -/
def pyListSort (key : String → Int) : List String → List String
  | [] => []
  | x :: xs => insertByKey key x (pyListSort key xs)

/-- `RamFileManager.getVersionFilePaths`. -/
def getVersionFilePaths (fs : RamsesFs) (filePath : String) : Except PyErr (List String) :=
  let fileName := pathBasename filePath
  let decomposedFileName := decomposeRamsesFileName fileName
  let versionsFolder := getVersionFolder filePath
  match collectScan fs versionsFolder decomposedFileName (fs.listdir versionsFolder) with
  | .error e => .error e
  | .ok versionFiles => .ok (pyListSort versionFilesSorterKey versionFiles)

/-! ## `getSaveFilePath`, `restoreVersionFile`, `copyToVersion` -/

/-- The literal part `+restored-v` of the `re.sub` pattern. -/
def restoredTagHead : List Char := ['+', 'r', 'e', 's', 't', 'o', 'r', 'e', 'd', '-', 'v']

/-- One attempt of the `re.sub` pattern `\+restored-v\d+\+` at the head
of the input: on success returns the input after the matched tag. -/
def matchRestoredTag (l : List Char) : Option (List Char) :=
  if l.take 11 = restoredTagHead then
    if (l.drop 11).takeWhile isDigitChar = [] then none
    else
      match (l.drop 11).drop ((l.drop 11).takeWhile isDigitChar).length with
      | '+' :: r => some r
      | _ => none
  else none

theorem matchRestoredTag_length {l r : List Char} (h : matchRestoredTag l = some r) :
    r.length < l.length := by
  unfold matchRestoredTag at h
  split at h
  next htake =>
    split at h
    · exact absurd h (by simp)
    next hne =>
      split at h
      next heq =>
        cases h
        have hd : ((l.drop 11).drop ((l.drop 11).takeWhile isDigitChar).length).length ≤
            (l.drop 11).length := ((l.drop 11).length_drop _) ▸ Nat.sub_le _ _
        rw [heq] at hd
        have hlen : 11 ≤ l.length := by
          have := congrArg List.length htake
          simp [restoredTagHead] at this
          omega
        have hdl : (List.drop 11 l).length = l.length - 11 := by simp
        simp only [List.length_cons] at hd
        omega
      next => exact absurd h (by simp)
  next => exact absurd h (by simp)

/-- `re.sub('\+restored-v\d+\+', "", ·)` with explicit fuel for
structural termination: left-to-right, non-overlapping removal of every
occurrence of the tag.  Every step consumes at least one character
(`matchRestoredTag_length`), so fuel at least the input length never runs
out. -/
def removeRestoredTagFuel : Nat → List Char → List Char
  | 0, _ => []
  | fuel + 1, l =>
    match matchRestoredTag l with
    | some r => removeRestoredTagFuel fuel r
    | none =>
      match l with
      | [] => []
      | c :: rest => c :: removeRestoredTagFuel fuel rest

/-- The resource-string cleanup in `getSaveFilePath`. -/
def removeRestoredTag (s : String) : String :=
  String.mk (removeRestoredTagFuel s.toList.length s.toList)

/-- `RamFileManager.getSaveFilePath`.  A failed decomposition logs and
returns the empty string; an absent `ramType` makes `buildRamsesFileName`
concatenate `None`, raising `TypeError`. -/
def getSaveFilePath (filePath : String) : Except PyErr String :=
  let fileName := pathBasename filePath
  match decomposeRamsesFileName fileName with
  | none => .ok ""
  | some d =>
    let saveFolder := pathDirname filePath
    let saveFolder := if inReservedFolder filePath then pathDirname saveFolder else saveFolder
    let resourceStr := removeRestoredTag d.resourceStr
    match d.ramType with
    | none => .error .typeError
    | some t =>
      .ok (saveFolder ++ "/" ++
        buildRamsesFileName d.projectID d.ramStep d.extension t d.objectShortName
          resourceStr (-1) "v")

/-- `RamFileManager.restoreVersionFile`.  The function reads nothing from
the filesystem; the `shutil.copy2` side effect is represented by the
returned destination path (`none` models Python's `None`: nothing is
copied). -/
def restoreVersionFile (filePath : String) : Except PyErr (Option String) :=
  if inVersionsFolder filePath = false then .ok none
  else
    match decomposeRamsesFileName (pathBasename filePath) with
    | none => .ok none
    | some d =>
      match d.ramType with
      | none => .error .typeError
      | some t =>
        let restoredFileName := buildRamsesFileName d.projectID d.ramStep d.extension t
          d.objectShortName (d.resourceStr ++ "+restored-v" ++ toString d.version ++ "+")
          (-1) "v"
        let versionFolder := pathDirname filePath
        let saveFolder := pathDirname versionFolder
        .ok (some (saveFolder ++ "/" ++ restoredFileName))

/-- `RamFileManager.copyToVersion`.  The `shutil.copy2` side effect is
represented by the returned destination path. -/
def copyToVersion (fs : RamsesFs) (filePath : String) (increment : Bool)
    (stateShortName : String) : Except PyErr (Option String) :=
  if fs.isfile filePath = false then .error .missingFile
  else
    match decomposeRamsesFileName (pathBasename filePath) with
    | none => .ok none
    | some d =>
      match getLatestVersion fs filePath stateShortName false with
      | .error e => .error e
      | .ok (versionNumber0, versionState0, _) =>
        let versionState := if stateShortName = "" then versionState0 else stateShortName
        let versionNumber1 := if increment then versionNumber0 + 1 else versionNumber0
        let versionNumber := if versionNumber1 ≤ 0 then 1 else versionNumber1
        match d.ramType with
        | none => .error .typeError
        | some t =>
          let newFileName := buildRamsesFileName d.projectID d.ramStep d.extension t
            d.objectShortName d.resourceStr versionNumber versionState
          let versionsFolder := getVersionFolder filePath
          .ok (some (versionsFolder ++ "/" ++ newFileName))

/-! ## Round-trip infrastructure (decode → re-encode)

The shape facts below are what a successful decomposition guarantees
about its result and what the re-encoding needs to parse back to the
same components. -/

/-- Case-insensitive equality of two character lists (a captured state
block against an alternation token). -/
def icaseEqList : List Char → List Char → Bool
  | [], [] => true
  | a :: as, b :: bs => icaseEqChar a b && icaseEqList as bs
  | _, _ => false

/-- The next character (if any) is outside the class: a greedy
repetition over `cls` stops exactly here. -/
def stopClass (cls : Char → Bool) : List Char → Bool
  | [] => true
  | c :: _ => !cls c

/-- The alternation tokens are non-empty and have pairwise distinct
lower-cased head characters, which makes the ordered alternation
deterministic on any input. -/
def toksHeadsOK (toks : List (List Char)) : Prop :=
  (∀ t ∈ toks, t ≠ []) ∧
  (∀ t ∈ toks, ∀ u ∈ toks, t ≠ u →
    lowerChar (t.headD ' ') ≠ lowerChar (u.headD ' '))

/-- The resource segment a rebuilt name contains for this resource
string. -/
def resSeg (resourceStr : String) : List Char :=
  if resourceStr = "" then [] else '_' :: resourceStr.toList

/-- The version segment a rebuilt name contains for this state and
version (the state is passed as the version prefix). -/
def verSeg (state : String) (version : Int) : List Char :=
  if version = -1 then [] else '_' :: (state.toList ++ natDigits version.toNat)

/-- Group 6 of the re-match of a rebuilt name. -/
def g6Exp (resourceStr : String) : Option (List Char) :=
  if resourceStr = "" then none else some resourceStr.toList

/-- Group 7 of the re-match of a rebuilt name. -/
def g7Exp (state : String) (version : Int) : Option (List Char) :=
  if version = -1 then none else if state = "" then none else some state.toList

/-- Group 8 of the re-match of a rebuilt name. -/
def g8Exp (version : Int) : Option (List Char) :=
  if version = -1 then none else some (natDigits version.toNat)

/-- The shape facts a successful decomposition with a present type
marker guarantees about its result: every block is over its character
class and within its length bounds, the resource does not start like a
version block, the state is a case variant of an alternation token when
a version is present, and the version is the `-1` sentinel exactly when
the version block (and with it the state) is absent. -/
structure GoodBlocks (c : RamsesFileBlocks) (t : String) : Prop where
  rt_eq : c.ramType = some t
  proj_cls : ∀ ch ∈ c.projectID.toList, isIdChar ch = true
  proj_ne : c.projectID.toList ≠ []
  proj_len : c.projectID.toList.length ≤ 10
  type_ok :
    ((t = "A" ∨ t = "S") ∧
      (∀ ch ∈ c.objectShortName.toList, isIdChar ch = true) ∧
      c.objectShortName.toList ≠ [] ∧ c.objectShortName.toList.length ≤ 10) ∨
    ((∃ gc, t.toList = [gc] ∧ isGChar gc = true) ∧ c.objectShortName = "")
  step_cls : ∀ ch ∈ c.ramStep.toList, isIdChar ch = true
  step_ne : c.ramStep.toList ≠ []
  step_len : c.ramStep.toList.length ≤ 10
  res_ok : c.resourceStr = "" ∨
    (c.resourceStr.toList ≠ [] ∧
      (∀ ch ∈ c.resourceStr.toList, isResChar ch = true) ∧
      lookVersionStart versionPrefixTokens c.resourceStr.toList = false)
  sv_ok : (c.state = "" ∧ c.version = -1) ∨
    (0 ≤ c.version ∧ (c.state = "" ∨
      ∃ tok ∈ versionPrefixTokens, icaseEqList c.state.toList tok = true))
  ext_cls : ∀ ch ∈ c.extension.toList, isExtChar ch = true
  ext_ne : c.extension.toList ≠ []

/-! ## Theorems: error handling of the decoder (claim C2) -/

/-- C2 (counterexample): the spec's boundary example
`decode("not_a_valid_name.txt")` does **not** return the no-match value:
the name matches the grammar (the lower-case `a` satisfies `[AS]` under
`re.IGNORECASE`), and decomposition returns components whose `ramType` is
the Python `None` (group 4 of a match that took the `[AS]` branch). -/
theorem decompose_notAValidName_matches :
    decomposeRamsesFileName "not_a_valid_name.txt" =
      some ⟨"not", none, "", "name", "", "", -1, "txt"⟩ := by
  rfl

/-- C2 (amended): for every *string* input the decoder never raises — it
returns its result directly, `none` exactly when the grammar does not
match — while a non-string input raises `TypeError`; and the boundary
input `"not_a_valid_name.txt"` conforms to the grammar, so it yields
components (with an absent `ramType`) rather than the no-match value. -/
theorem decompose_neverRaisesOnStrings :
    (∀ s : String, decomposeRamsesFileNameDyn (.pyStr s) = .ok (decomposeRamsesFileName s)) ∧
    (∀ n : Int, decomposeRamsesFileNameDyn (.pyInt n) = .error .typeError) ∧
    decomposeRamsesFileNameDyn .pyNone = .error .typeError ∧
    (decomposeRamsesFileName "not_a_valid_name.txt").isSome = true := by
  refine ⟨fun s => rfl, fun n => rfl, rfl, ?_⟩
  rw [decompose_notAValidName_matches]
  rfl

/-- Witness for `decompose_neverRaisesOnStrings` at concrete inputs. -/
theorem decompose_neverRaisesOnStrings_witness :
    decomposeRamsesFileNameDyn (.pyStr "FPE_A_TRI_MOD_v003.blend") =
      .ok (decomposeRamsesFileName "FPE_A_TRI_MOD_v003.blend") ∧
    decomposeRamsesFileNameDyn (.pyInt 42) = .error .typeError :=
  ⟨decompose_neverRaisesOnStrings.1 "FPE_A_TRI_MOD_v003.blend",
   decompose_neverRaisesOnStrings.2.1 42⟩

/-! ## Theorems: `restoreVersionFile` (claim C8) -/

/-- C8 (counterexample): for a path that *is* directly inside a versions
folder but whose basename does not decompose, `restoreVersionFile`
performs no copy and yields no result — the claim's `otherwise` branch
(re-encode and copy) does not happen. -/
theorem restoreVersionFile_undecodable_cex :
    inVersionsFolder "proj/FPE_A_TRI/_versions/garbage.txt" = true ∧
    restoreVersionFile "proj/FPE_A_TRI/_versions/garbage.txt" = .ok none := by
  constructor <;> rfl

/-- C8 (amended): `restoreVersionFile` yields no result when the path is
not directly inside a versions folder, and also when the basename does
not decompose; when it decomposes with a present type marker, the result
is the re-encoded name — resource suffixed with `+restored-v<N>+`, no
version block — in the folder one level above the versions folder (an
absent type marker raises `TypeError` instead). -/
theorem restoreVersionFile_spec (p : String) :
    (inVersionsFolder p = false → restoreVersionFile p = .ok none) ∧
    (decomposeRamsesFileName (pathBasename p) = none → restoreVersionFile p = .ok none) ∧
    (∀ c t, inVersionsFolder p = true →
      decomposeRamsesFileName (pathBasename p) = some c → c.ramType = some t →
      restoreVersionFile p = .ok (some (pathDirname (pathDirname p) ++ "/" ++
        buildRamsesFileName c.projectID c.ramStep c.extension t c.objectShortName
          (c.resourceStr ++ "+restored-v" ++ toString c.version ++ "+") (-1) "v"))) := by
  refine ⟨fun hin => ?_, fun hdec => ?_, fun c t hin hdec ht => ?_⟩
  · simp [restoreVersionFile, hin]
  · by_cases hin : inVersionsFolder p
    · simp [restoreVersionFile, hin, hdec]
    · simp [restoreVersionFile, hin]
  · simp [restoreVersionFile, hin, hdec, ht]

/-- Witness for `restoreVersionFile_spec` at the spec's scenario: restoring
`…/_versions/FPE_A_TRI_MOD_v003.blend` produces
`…/FPE_A_TRI_MOD_+restored-v3+.blend` in the owning folder. -/
theorem restoreVersionFile_spec_witness :
    inVersionsFolder "proj/FPE_A_TRI/_versions/FPE_A_TRI_MOD_v003.blend" = true ∧
    restoreVersionFile "proj/FPE_A_TRI/_versions/FPE_A_TRI_MOD_v003.blend" =
      .ok (some "proj/FPE_A_TRI/FPE_A_TRI_MOD_+restored-v3+.blend") := by
  refine ⟨by rfl, ?_⟩
  have h := (restoreVersionFile_spec "proj/FPE_A_TRI/_versions/FPE_A_TRI_MOD_v003.blend").2.2
    ⟨"FPE", some "A", "TRI", "MOD", "", "v", 3, "blend"⟩ "A" (by rfl) (by rfl) (by rfl)
  exact h.trans (by rfl)


/-! ## Theorems: `getSaveFilePath` (claim C9) -/

/-- C9 (counterexample): the basename `fpe_a_tri_mod.blend` decodes (to
components with an absent `ramType`), yet `getSaveFilePath` raises
`TypeError` (Python concatenates `None` inside `buildRamsesFileName`)
instead of returning a save path. -/
theorem getSaveFilePath_noneType_cex :
    (decomposeRamsesFileName (pathBasename "proj/fpe_a_tri_mod.blend")).isSome = true ∧
    getSaveFilePath "proj/fpe_a_tri_mod.blend" = .error .typeError := by
  constructor <;> rfl

/-- C9 (amended): for every file path whose basename decodes *with a
present type marker*, `getSaveFilePath` returns the re-encoded name (no
version block, any `+restored-v<N>+` marker removed from the resource
field) joined to the reserved folder's parent when the file lies directly
inside a versions/preview/publish folder and to the file's own folder
otherwise; when the decoded type marker is absent it raises `TypeError`,
and when the basename does not decode it returns the empty string. -/
theorem getSaveFilePath_spec (p : String) :
    (decomposeRamsesFileName (pathBasename p) = none → getSaveFilePath p = .ok "") ∧
    (∀ c, decomposeRamsesFileName (pathBasename p) = some c → c.ramType = none →
      getSaveFilePath p = .error .typeError) ∧
    (∀ c t, decomposeRamsesFileName (pathBasename p) = some c → c.ramType = some t →
      getSaveFilePath p = .ok
        ((if inReservedFolder p then pathDirname (pathDirname p) else pathDirname p) ++
          "/" ++ buildRamsesFileName c.projectID c.ramStep c.extension t c.objectShortName
            (removeRestoredTag c.resourceStr) (-1) "v")) := by
  refine ⟨fun hdec => ?_, fun c hdec ht => ?_, fun c t hdec ht => ?_⟩
  · simp [getSaveFilePath, hdec]
  · simp [getSaveFilePath, hdec, ht]
  · by_cases hres : inReservedFolder p <;> simp [getSaveFilePath, hdec, ht, hres]

/-- Witness for `getSaveFilePath_spec`: the save path of a version file is
the cleaned name in the folder above `_versions`. -/
theorem getSaveFilePath_spec_witness :
    getSaveFilePath "proj/FPE_A_TRI/_versions/FPE_A_TRI_MOD_v003.blend" =
      .ok "proj/FPE_A_TRI/FPE_A_TRI_MOD.blend" := by
  have h := (getSaveFilePath_spec "proj/FPE_A_TRI/_versions/FPE_A_TRI_MOD_v003.blend").2.2
    ⟨"FPE", some "A", "TRI", "MOD", "", "v", 3, "blend"⟩ "A" (by rfl) (by rfl)
  exact h.trans (by rfl)

/-! ## Specification-side view of the scans -/

/-- The five-field lineage equality applied by both scans (`state` and
`version` are excluded from the key). -/
def lineageEq (d r : RamsesFileBlocks) : Bool :=
  d.projectID = r.projectID && d.ramType = r.ramType &&
  d.objectShortName = r.objectShortName && d.ramStep = r.ramStep &&
  d.resourceStr = r.resourceStr

/-- The entries `getLatestVersionFilePath` counts, with their decoded
versions, in listing order: regular files whose name decomposes, agrees
with the reference on the five lineage fields and carries a version
block (`version ≠ -1`). -/
def versionCandidates (fs : RamsesFs) (folder : String) (r : RamsesFileBlocks) :
    List String → List (String × Int)
  | [] => []
  | f :: rest =>
    if fs.isfile (folder ++ "/" ++ f) = false then versionCandidates fs folder r rest
    else
      match decomposeRamsesFileName f with
      | none => versionCandidates fs folder r rest
      | some d =>
        if d.projectID ≠ r.projectID then versionCandidates fs folder r rest
        else if d.ramType ≠ r.ramType then versionCandidates fs folder r rest
        else if d.objectShortName ≠ r.objectShortName then versionCandidates fs folder r rest
        else if d.ramStep ≠ r.ramStep then versionCandidates fs folder r rest
        else if d.resourceStr ≠ r.resourceStr then versionCandidates fs folder r rest
        else if d.version = -1 then versionCandidates fs folder r rest
        else (f, d.version) :: versionCandidates fs folder r rest

/-- The entries `getVersionFilePaths` keeps (same five-field filter, but
no exclusion of the `-1` sentinel), in listing order. -/
def lineageCandidates (fs : RamsesFs) (folder : String) (r : RamsesFileBlocks) :
    List String → List String
  | [] => []
  | f :: rest =>
    if fs.isfile (folder ++ "/" ++ f) = false then lineageCandidates fs folder r rest
    else
      match decomposeRamsesFileName f with
      | none => lineageCandidates fs folder r rest
      | some d =>
        if d.projectID ≠ r.projectID then lineageCandidates fs folder r rest
        else if d.ramType ≠ r.ramType then lineageCandidates fs folder r rest
        else if d.objectShortName ≠ r.objectShortName then lineageCandidates fs folder r rest
        else if d.ramStep ≠ r.ramStep then lineageCandidates fs folder r rest
        else if d.resourceStr ≠ r.resourceStr then lineageCandidates fs folder r rest
        else f :: lineageCandidates fs folder r rest

/-- One update step of the scan's running maximum: a strictly greater
version displaces the current best into the `previous` slot. -/
def latestStep (folder : String) :
    (Int × String × String) → (String × Int) → (Int × String × String)
  | (h, v, p), (f, ver) => if ver > h then (ver, folder ++ "/" ++ f, v) else (h, v, p)

theorem latestScan_eq_foldl (fs : RamsesFs) (folder : String) (r : RamsesFileBlocks) :
    ∀ (es : List String) (h : Int) (v p : String),
    latestScan fs folder (some r) es h v p =
      .ok (List.foldl (latestStep folder) (h, v, p) (versionCandidates fs folder r es)) := by
  intro es
  induction es with
  | nil => intro h v p; rfl
  | cons f rest ih =>
    intro h v p
    show latestScan fs folder (some r) (f :: rest) h v p = _
    rw [latestScan, versionCandidates]
    split
    · exact ih h v p
    · split
      · exact ih h v p
      next d hd =>
        by_cases h1 : d.projectID ≠ r.projectID
        · simp only [if_pos h1]; exact ih h v p
        by_cases h2 : d.ramType ≠ r.ramType
        · simp only [if_neg h1, if_pos h2]; exact ih h v p
        by_cases h3 : d.objectShortName ≠ r.objectShortName
        · simp only [if_neg h1, if_neg h2, if_pos h3]; exact ih h v p
        by_cases h4 : d.ramStep ≠ r.ramStep
        · simp only [if_neg h1, if_neg h2, if_neg h3, if_pos h4]; exact ih h v p
        by_cases h5 : d.resourceStr ≠ r.resourceStr
        · simp only [if_neg h1, if_neg h2, if_neg h3, if_neg h4, if_pos h5]; exact ih h v p
        by_cases h6 : d.version = -1
        · simp only [if_neg h1, if_neg h2, if_neg h3, if_neg h4, if_neg h5, if_pos h6]
          exact ih h v p
        simp only [if_neg h1, if_neg h2, if_neg h3, if_neg h4, if_neg h5, if_neg h6,
          List.foldl_cons]
        by_cases h7 : d.version > h
        · simp only [if_pos h7, latestStep, if_pos h7]; exact ih _ _ _
        · simp only [if_neg h7, latestStep, if_neg h7]; exact ih _ _ _

theorem collectScan_eq_map (fs : RamsesFs) (folder : String) (r : RamsesFileBlocks) :
    ∀ es : List String,
    collectScan fs folder (some r) es =
      .ok ((lineageCandidates fs folder r es).map (fun f => folder ++ "/" ++ f)) := by
  intro es
  induction es with
  | nil => rfl
  | cons f rest ih =>
    rw [collectScan, lineageCandidates]
    split
    · exact ih
    · split
      · exact ih
      next d hd =>
        by_cases h1 : d.projectID ≠ r.projectID
        · simp only [if_pos h1]; exact ih
        by_cases h2 : d.ramType ≠ r.ramType
        · simp only [if_neg h1, if_pos h2]; exact ih
        by_cases h3 : d.objectShortName ≠ r.objectShortName
        · simp only [if_neg h1, if_neg h2, if_pos h3]; exact ih
        by_cases h4 : d.ramStep ≠ r.ramStep
        · simp only [if_neg h1, if_neg h2, if_neg h3, if_pos h4]; exact ih
        by_cases h5 : d.resourceStr ≠ r.resourceStr
        · simp only [if_neg h1, if_neg h2, if_neg h3, if_neg h4, if_pos h5]; exact ih
        simp only [if_neg h1, if_neg h2, if_neg h3, if_neg h4, if_neg h5, ih, List.map_cons]

/-! ## Theorems: undecodable reference name (claim C10) -/

theorem latestScan_none_error (fs : RamsesFs) (folder : String) :
    ∀ (es : List String) (h : Int) (v p : String),
    (∃ f ∈ es, fs.isfile (folder ++ "/" ++ f) = true ∧
      (decomposeRamsesFileName f).isSome = true) →
    latestScan fs folder none es h v p = .error .typeError := by
  intro es
  induction es with
  | nil => intro h v p hex; simp at hex
  | cons f rest ih =>
    intro h v p hex
    rw [latestScan]
    split
    next hfile =>
      refine ih h v p ?_
      obtain ⟨g, hg, hgf, hgd⟩ := hex
      rcases List.mem_cons.1 hg with rfl | hgrest
      · rw [hfile] at hgf; cases hgf
      · exact ⟨g, hgrest, hgf, hgd⟩
    next hfile =>
      split
      next hdec =>
        refine ih h v p ?_
        obtain ⟨g, hg, hgf, hgd⟩ := hex
        rcases List.mem_cons.1 hg with rfl | hgrest
        · rw [hdec] at hgd; cases hgd
        · exact ⟨g, hgrest, hgf, hgd⟩
      next d hdec => rfl

theorem collectScan_none_error (fs : RamsesFs) (folder : String) :
    ∀ es : List String,
    (∃ f ∈ es, fs.isfile (folder ++ "/" ++ f) = true ∧
      (decomposeRamsesFileName f).isSome = true) →
    collectScan fs folder none es = .error .typeError := by
  intro es
  induction es with
  | nil => intro hex; simp at hex
  | cons f rest ih =>
    intro hex
    rw [collectScan]
    split
    next hfile =>
      refine ih ?_
      obtain ⟨g, hg, hgf, hgd⟩ := hex
      rcases List.mem_cons.1 hg with rfl | hgrest
      · rw [hfile] at hgf; cases hgf
      · exact ⟨g, hgrest, hgf, hgd⟩
    next hfile =>
      split
      next hdec =>
        refine ih ?_
        obtain ⟨g, hg, hgf, hgd⟩ := hex
        rcases List.mem_cons.1 hg with rfl | hgrest
        · rw [hdec] at hgd; cases hgd
        · exact ⟨g, hgrest, hgf, hgd⟩
      next d hdec => rfl

/-- C10 (confirmed): when the reference file name does not decompose, the
scans log and keep going, then subscript the `None` decomposition while
filtering; so as soon as the versions folder holds at least one regular
file with a decodable name, both `getLatestVersionFilePath` and
`getVersionFilePaths` raise `TypeError` instead of returning. -/
theorem scan_undecodableReference_raises (fs : RamsesFs) (p : String) (prev : Bool)
    (hnone : decomposeRamsesFileName (pathBasename p) = none)
    (hex : ∃ f ∈ fs.listdir (getVersionFolder p),
      fs.isfile (getVersionFolder p ++ "/" ++ f) = true ∧
      (decomposeRamsesFileName f).isSome = true) :
    getLatestVersionFilePath fs p prev = .error .typeError ∧
    getVersionFilePaths fs p = .error .typeError := by
  constructor
  · rw [getLatestVersionFilePath, hnone,
      latestScan_none_error fs (getVersionFolder p) (fs.listdir (getVersionFolder p)) 0 "" "" hex]
  · rw [getVersionFilePaths, hnone,
      collectScan_none_error fs (getVersionFolder p) (fs.listdir (getVersionFolder p)) hex]

/-- Witness for `scan_undecodableReference_raises`: a reference
`garbage.txt` over a versions folder holding one decodable regular
file. -/
theorem scan_undecodableReference_raises_witness :
    getLatestVersionFilePath
      ⟨fun _ => ["FPE_A_TRI_MOD_v001.blend"], fun _ => true, fun _ => 0, 0⟩
      "w/garbage.txt" false = .error .typeError ∧
    getVersionFilePaths
      ⟨fun _ => ["FPE_A_TRI_MOD_v001.blend"], fun _ => true, fun _ => 0, 0⟩
      "w/garbage.txt" = .error .typeError :=
  scan_undecodableReference_raises
    ⟨fun _ => ["FPE_A_TRI_MOD_v001.blend"], fun _ => true, fun _ => 0, 0⟩
    "w/garbage.txt" false (by rfl)
    ⟨"FPE_A_TRI_MOD_v001.blend", by simp, by rfl, by rfl⟩

/-! ## Fold-level characterization of the latest-version scan -/

/-- The running maximum as a fold over the candidate versions. -/
def foldMaxVersion (h : Int) (cands : List (String × Int)) : Int :=
  List.foldl (fun a x => max a x.2) h cands

/-- The full path of the first listed candidate carrying version `m`. -/
def firstWithVersion (folder : String) (m : Int) : List (String × Int) → String
  | [] => ""
  | (f, ver) :: rest =>
    if ver = m then folder ++ "/" ++ f else firstWithVersion folder m rest

theorem le_foldMaxVersion (h : Int) : ∀ cands : List (String × Int),
    h ≤ foldMaxVersion h cands := by
  intro cands
  induction cands generalizing h with
  | nil => exact le_refl h
  | cons x rest ih =>
    calc h ≤ max h x.2 := le_max_left _ _
    _ ≤ foldMaxVersion (max h x.2) rest := ih _

theorem foldMaxVersion_nil (h : Int) : foldMaxVersion h [] = h := rfl

theorem foldMaxVersion_cons (h : Int) (f : String) (ver : Int) (rest : List (String × Int)) :
    foldMaxVersion h ((f, ver) :: rest) = foldMaxVersion (max h ver) rest := rfl

theorem foldl_latestStep_fst (folder : String) :
    ∀ (cands : List (String × Int)) (h : Int) (v p : String),
    (List.foldl (latestStep folder) (h, v, p) cands).1 = foldMaxVersion h cands := by
  intro cands
  induction cands with
  | nil => intro h v p; rfl
  | cons x rest ih =>
    intro h v p
    obtain ⟨f, ver⟩ := x
    rw [List.foldl_cons, foldMaxVersion_cons]
    by_cases hc : ver > h
    · rw [show latestStep folder (h, v, p) (f, ver) = (ver, folder ++ "/" ++ f, v) from
        if_pos hc, show max h ver = ver from max_eq_right (le_of_lt hc)]
      exact ih ver _ _
    · rw [show latestStep folder (h, v, p) (f, ver) = (h, v, p) from if_neg hc,
        show max h ver = h from max_eq_left (by omega)]
      exact ih h v p

theorem foldl_latestStep_select (folder : String) :
    ∀ (cands : List (String × Int)) (h : Int) (v p : String),
    (List.foldl (latestStep folder) (h, v, p) cands).2.1 =
      if h < foldMaxVersion h cands then
        firstWithVersion folder (foldMaxVersion h cands) cands
      else v := by
  intro cands
  induction cands with
  | nil =>
    intro h v p
    rw [foldMaxVersion_nil]
    simp
  | cons x rest ih =>
    intro h v p
    obtain ⟨f, ver⟩ := x
    rw [List.foldl_cons, foldMaxVersion_cons]
    by_cases hc : ver > h
    · rw [show latestStep folder (h, v, p) (f, ver) = (ver, folder ++ "/" ++ f, v) from
        if_pos hc, show max h ver = ver from max_eq_right (le_of_lt hc)]
      have hM : ver ≤ foldMaxVersion ver rest := le_foldMaxVersion ver rest
      rw [ih ver (folder ++ "/" ++ f) v]
      by_cases hlt : ver < foldMaxVersion ver rest
      · rw [if_pos hlt, if_pos (lt_trans hc hlt), firstWithVersion,
          if_neg (by omega : ¬ ver = foldMaxVersion ver rest)]
      · have heq : foldMaxVersion ver rest = ver := by omega
        rw [if_neg hlt, heq, if_pos hc, firstWithVersion, if_pos rfl]
    · rw [show latestStep folder (h, v, p) (f, ver) = (h, v, p) from if_neg hc,
        show max h ver = h from max_eq_left (by omega)]
      rw [ih h v p]
      by_cases hlt : h < foldMaxVersion h rest
      · rw [if_pos hlt, if_pos hlt, firstWithVersion,
          if_neg (by omega : ¬ ver = foldMaxVersion h rest)]
      · rw [if_neg hlt, if_neg hlt]

/-- The second-to-last element of the candidate list. -/
def secondLastCandidate : List (String × Int) → Option (String × Int)
  | [] => none
  | [_] => none
  | [x, _] => some x
  | _ :: y :: z :: rest => secondLastCandidate (y :: z :: rest)

theorem secondLastCandidate_isSome :
    ∀ (rest : List (String × Int)) (y z : String × Int),
    (secondLastCandidate (y :: z :: rest)).isSome = true := by
  intro rest
  induction rest with
  | nil => intro y z; rfl
  | cons w rest' ih => intro y z; exact ih z w

theorem foldl_latestStep_prev_ascending (folder : String) :
    ∀ (cands : List (String × Int)) (h : Int) (v p : String),
    (cands.map Prod.snd).Pairwise (· < ·) →
    (∀ x ∈ cands, h < x.2) →
    (List.foldl (latestStep folder) (h, v, p) cands).2.2 =
      match secondLastCandidate cands with
      | some x => folder ++ "/" ++ x.1
      | none => if cands = [] then p else v := by
  intro cands
  induction cands with
  | nil => intro h v p _ _; simp [secondLastCandidate]
  | cons x rest ih =>
    intro h v p hasc hpos
    obtain ⟨f, ver⟩ := x
    have hstep : latestStep folder (h, v, p) (f, ver) = (ver, folder ++ "/" ++ f, v) :=
      if_pos (hpos (f, ver) (List.mem_cons_self _ _))
    rw [List.foldl_cons, hstep]
    have hasc' : (rest.map Prod.snd).Pairwise (· < ·) :=
      (List.pairwise_cons.1 (by simpa using hasc)).2
    have hpos' : ∀ x ∈ rest, ver < x.2 := by
      intro y hy
      exact (List.pairwise_cons.1 (by simpa using hasc)).1 y.2
        (List.mem_map_of_mem Prod.snd hy)
    rw [ih ver (folder ++ "/" ++ f) v hasc' hpos']
    match rest with
    | [] => rfl
    | [y] => rfl
    | y :: z :: rest' =>
      show (match secondLastCandidate (y :: z :: rest') with
        | some x => folder ++ "/" ++ x.1
        | none => if y :: z :: rest' = [] then v else folder ++ "/" ++ f) =
        match secondLastCandidate (y :: z :: rest') with
        | some x => folder ++ "/" ++ x.1
        | none => if (f, ver) :: y :: z :: rest' = [] then p else v
      have hs := secondLastCandidate_isSome rest' y z
      cases hsl : secondLastCandidate (y :: z :: rest') with
      | some w => rfl
      | none => rw [hsl] at hs; cases hs

theorem getLatestVersionFilePath_sel (fs : RamsesFs) (p : String) (r : RamsesFileBlocks)
    (hr : decomposeRamsesFileName (pathBasename p) = some r) :
    getLatestVersionFilePath fs p false =
      .ok ((List.foldl (latestStep (getVersionFolder p)) (0, "", "")
        (versionCandidates fs (getVersionFolder p) r
          (fs.listdir (getVersionFolder p)))).2.1) := by
  rw [getLatestVersionFilePath, hr, latestScan_eq_foldl]
  rcases List.foldl (latestStep (getVersionFolder p)) (0, "", "")
      (versionCandidates fs (getVersionFolder p) r (fs.listdir (getVersionFolder p)))
    with ⟨h1, v1, p1⟩
  rfl

theorem getLatestVersionFilePath_prev (fs : RamsesFs) (p : String) (r : RamsesFileBlocks)
    (hr : decomposeRamsesFileName (pathBasename p) = some r) :
    getLatestVersionFilePath fs p true =
      .ok ((List.foldl (latestStep (getVersionFolder p)) (0, "", "")
        (versionCandidates fs (getVersionFolder p) r
          (fs.listdir (getVersionFolder p)))).2.2) := by
  rw [getLatestVersionFilePath, hr, latestScan_eq_foldl]
  rcases List.foldl (latestStep (getVersionFolder p)) (0, "", "")
      (versionCandidates fs (getVersionFolder p) r (fs.listdir (getVersionFolder p)))
    with ⟨h1, v1, p1⟩
  rfl

theorem versionCandidates_congr (fs fsB : RamsesFs) (folder : String) (r : RamsesFileBlocks)
    (hfi : fsB.isfile = fs.isfile) :
    ∀ es : List String, versionCandidates fsB folder r es = versionCandidates fs folder r es := by
  intro es
  induction es with
  | nil => rfl
  | cons f rest ih =>
    rw [versionCandidates, versionCandidates, hfi]
    split
    · exact ih
    · split
      · exact ih
      · split_ifs <;> simp [ih]

/-! ## Theorems: latest-version selection (claim C4) -/

/-- C4 (counterexample): two lineage siblings share the maximal version 2;
the first-listed one is selected even though the other has the more recent
modification time, so the tie is *not* broken by modification time. -/
theorem latestVersion_ignoresMtime_cex :
    getLatestVersionFilePath
      ⟨fun _ => ["FPE_A_TRI_MOD_v002.blend", "FPE_A_TRI_MOD_wip2.blend"], fun _ => true,
        fun q => if q = "w/_versions/FPE_A_TRI_MOD_v002.blend" then 100 else 200, 0⟩
      "w/FPE_A_TRI_MOD.blend" false = .ok "w/_versions/FPE_A_TRI_MOD_v002.blend" ∧
    (decomposeRamsesFileName "FPE_A_TRI_MOD_v002.blend").map RamsesFileBlocks.version =
      some 2 ∧
    (decomposeRamsesFileName "FPE_A_TRI_MOD_wip2.blend").map RamsesFileBlocks.version =
      some 2 ∧
    (100 : Int) < 200 := by
  refine ⟨by rfl, by rfl, by rfl, by omega⟩

/-- C4 (amended): when the reference name decodes, the latest-version
query selects the **first-listed** candidate achieving the maximal
version (empty when no candidate has a positive version); the selection
never reads modification times, so it is unchanged under any modification
of `mtime`/`now` — in particular a more recently modified duplicate does
not win a tie unless it is listed first. -/
theorem latestVersion_firstListedMax (fs : RamsesFs) (p : String) (r : RamsesFileBlocks)
    (hr : decomposeRamsesFileName (pathBasename p) = some r) :
    (getLatestVersionFilePath fs p false =
      .ok (if 0 < foldMaxVersion 0 (versionCandidates fs (getVersionFolder p) r
              (fs.listdir (getVersionFolder p))) then
        firstWithVersion (getVersionFolder p)
          (foldMaxVersion 0 (versionCandidates fs (getVersionFolder p) r
            (fs.listdir (getVersionFolder p))))
          (versionCandidates fs (getVersionFolder p) r (fs.listdir (getVersionFolder p)))
      else "")) ∧
    (∀ (mt : String → Int) (nw : Int),
      getLatestVersionFilePath ⟨fs.listdir, fs.isfile, mt, nw⟩ p false =
        getLatestVersionFilePath fs p false) := by
  constructor
  · rw [getLatestVersionFilePath_sel fs p r hr,
      foldl_latestStep_select (getVersionFolder p) _ 0 "" ""]
  · intro mt nw
    rw [getLatestVersionFilePath_sel fs p r hr,
      getLatestVersionFilePath_sel ⟨fs.listdir, fs.isfile, mt, nw⟩ p r hr,
      versionCandidates_congr ⟨fs.listdir, fs.isfile, mt, nw⟩ fs (getVersionFolder p) r rfl]

/-- Witness for `latestVersion_firstListedMax` on a concrete listing. -/
theorem latestVersion_firstListedMax_witness :
    getLatestVersionFilePath
      ⟨fun _ => ["FPE_A_TRI_MOD_v001.blend", "FPE_A_TRI_MOD_v003.blend"], fun _ => true,
        fun _ => 0, 0⟩
      "w/FPE_A_TRI_MOD.blend" false = .ok "w/_versions/FPE_A_TRI_MOD_v003.blend" := by
  have h := (latestVersion_firstListedMax
    ⟨fun _ => ["FPE_A_TRI_MOD_v001.blend", "FPE_A_TRI_MOD_v003.blend"], fun _ => true,
      fun _ => 0, 0⟩
    "w/FPE_A_TRI_MOD.blend" ⟨"FPE", some "A", "TRI", "MOD", "", "", -1, "blend"⟩
    (by rfl)).1
  exact h.trans (by rfl)

/-! ## Theorems: previous-version selection (claim C3) -/

/-- C3 (counterexample): with directory-listing order `[v003, v001]` the
`previous=True` query returns the empty string although a lineage sibling
with the second-highest version (1) exists — the result depends on the
listing order, so it is not, for every order, the second-highest. -/
theorem previousVersion_orderDependent_cex :
    getLatestVersionFilePath
      ⟨fun _ => ["FPE_A_TRI_MOD_v003.blend", "FPE_A_TRI_MOD_v001.blend"], fun _ => true,
        fun _ => 0, 0⟩
      "w/FPE_A_TRI_MOD.blend" true = .ok "" ∧
    versionCandidates
      ⟨fun _ => ["FPE_A_TRI_MOD_v003.blend", "FPE_A_TRI_MOD_v001.blend"], fun _ => true,
        fun _ => 0, 0⟩
      "w/_versions" ⟨"FPE", some "A", "TRI", "MOD", "", "", -1, "blend"⟩
      ["FPE_A_TRI_MOD_v003.blend", "FPE_A_TRI_MOD_v001.blend"] =
      [("FPE_A_TRI_MOD_v003.blend", 3), ("FPE_A_TRI_MOD_v001.blend", 1)] := by
  constructor <;> rfl

/-- C3 (amended): `previous=True` returns the sibling displaced from the
running maximum by its final strict improvement; this equals the
second-highest sibling exactly when the qualifying siblings appear in
strictly ascending version order (with positive versions) — then the
second-to-last listed candidate is returned, and the empty string when
there are fewer than two candidates.  For other listing orders the result
can be empty even though a second-highest sibling exists. -/
theorem previousVersion_secondHighest_ascending (fs : RamsesFs) (p : String)
    (r : RamsesFileBlocks)
    (hr : decomposeRamsesFileName (pathBasename p) = some r)
    (hasc : ((versionCandidates fs (getVersionFolder p) r
      (fs.listdir (getVersionFolder p))).map Prod.snd).Pairwise (· < ·))
    (hpos : ∀ x ∈ versionCandidates fs (getVersionFolder p) r
      (fs.listdir (getVersionFolder p)), 0 < x.2) :
    getLatestVersionFilePath fs p true =
      .ok (match secondLastCandidate (versionCandidates fs (getVersionFolder p) r
          (fs.listdir (getVersionFolder p))) with
        | some x => getVersionFolder p ++ "/" ++ x.1
        | none => "") := by
  rw [getLatestVersionFilePath_prev fs p r hr,
    foldl_latestStep_prev_ascending (getVersionFolder p) _ 0 "" "" hasc hpos]
  cases secondLastCandidate (versionCandidates fs (getVersionFolder p) r
    (fs.listdir (getVersionFolder p))) with
  | some x => rfl
  | none => simp

/-- Witness for `previousVersion_secondHighest_ascending`: ascending
listing `[v001, v003]` yields the second-highest `v001`. -/
theorem previousVersion_secondHighest_ascending_witness :
    getLatestVersionFilePath
      ⟨fun _ => ["FPE_A_TRI_MOD_v001.blend", "FPE_A_TRI_MOD_v003.blend"], fun _ => true,
        fun _ => 0, 0⟩
      "w/FPE_A_TRI_MOD.blend" true = .ok "w/_versions/FPE_A_TRI_MOD_v001.blend" := by
  have h := previousVersion_secondHighest_ascending
    ⟨fun _ => ["FPE_A_TRI_MOD_v001.blend", "FPE_A_TRI_MOD_v003.blend"], fun _ => true,
      fun _ => 0, 0⟩
    "w/FPE_A_TRI_MOD.blend" ⟨"FPE", some "A", "TRI", "MOD", "", "", -1, "blend"⟩
    (by rfl) (by decide) (by decide)
  exact h.trans (by rfl)

/-! ## Sorting lemmas for `pyListSort` -/

theorem insertByKey_perm (key : String → Int) (x : String) :
    ∀ l : List String, (insertByKey key x l).Perm (x :: l) := by
  intro l
  induction l with
  | nil => exact List.Perm.refl _
  | cons y ys ih =>
    rw [insertByKey]
    split
    · exact List.Perm.refl _
    · exact (List.Perm.cons y ih).trans (List.Perm.swap x y ys)

theorem pyListSort_perm (key : String → Int) :
    ∀ l : List String, (pyListSort key l).Perm l := by
  intro l
  induction l with
  | nil => exact List.Perm.refl _
  | cons x xs ih =>
    rw [pyListSort]
    exact (insertByKey_perm key x (pyListSort key xs)).trans (List.Perm.cons x ih)

theorem insertByKey_sorted (key : String → Int) (x : String) :
    ∀ l : List String, l.Pairwise (fun a b => key a ≤ key b) →
    (insertByKey key x l).Pairwise (fun a b => key a ≤ key b) := by
  intro l
  induction l with
  | nil => intro _; exact List.pairwise_singleton _ _
  | cons y ys ih =>
    intro hp
    obtain ⟨hy, hys⟩ := List.pairwise_cons.1 hp
    rw [insertByKey]
    split
    next hle =>
      refine List.pairwise_cons.2 ⟨?_, hp⟩
      intro z hz
      rcases List.mem_cons.1 hz with rfl | hz'
      · exact hle
      · exact le_trans hle (hy z hz')
    next hgt =>
      refine List.pairwise_cons.2 ⟨?_, ih hys⟩
      intro z hz
      have hz' := (insertByKey_perm key x ys).mem_iff.1 hz
      rcases List.mem_cons.1 hz' with rfl | hz''
      · omega
      · exact hy z hz''

theorem pyListSort_sorted (key : String → Int) :
    ∀ l : List String, (pyListSort key l).Pairwise (fun a b => key a ≤ key b) := by
  intro l
  induction l with
  | nil => exact List.Pairwise.nil
  | cons x xs ih => exact insertByKey_sorted key x (pyListSort key xs) ih

/-! ## The filter predicate of `getVersionFilePaths` -/

/-- The criteria `getVersionFilePaths` applies to a listed entry: regular
file, decodable name, and the five-field lineage equality — note, no
condition on the decoded `version`. -/
def lineageKeep (fs : RamsesFs) (folder : String) (r : RamsesFileBlocks) (f : String) : Bool :=
  fs.isfile (folder ++ "/" ++ f) &&
    (match decomposeRamsesFileName f with
     | some d => lineageEq d r
     | none => false)

theorem lineageCandidates_eq_filter (fs : RamsesFs) (folder : String) (r : RamsesFileBlocks) :
    ∀ es : List String,
    lineageCandidates fs folder r es = es.filter (lineageKeep fs folder r) := by
  intro es
  induction es with
  | nil => rfl
  | cons f rest ih =>
    rw [lineageCandidates, List.filter_cons]
    split
    next h0 => rw [ih, if_neg (by simp [lineageKeep, h0])]
    next h0 =>
      have h0' : fs.isfile (folder ++ "/" ++ f) = true := by
        cases hh : fs.isfile (folder ++ "/" ++ f)
        · exact absurd hh h0
        · rfl
      split
      next hd => rw [ih, if_neg (by simp [lineageKeep, hd])]
      next d hd =>
        by_cases h1 : d.projectID ≠ r.projectID
        · rw [if_pos h1, ih, if_neg (by simp [lineageKeep, hd, lineageEq, h0', h1])]
        by_cases h2 : d.ramType ≠ r.ramType
        · rw [if_neg h1, if_pos h2, ih,
            if_neg (by simp [lineageKeep, hd, lineageEq, h0', h2])]
        by_cases h3 : d.objectShortName ≠ r.objectShortName
        · rw [if_neg h1, if_neg h2, if_pos h3, ih,
            if_neg (by simp [lineageKeep, hd, lineageEq, h0', h3])]
        by_cases h4 : d.ramStep ≠ r.ramStep
        · rw [if_neg h1, if_neg h2, if_neg h3, if_pos h4, ih,
            if_neg (by simp [lineageKeep, hd, lineageEq, h0', h4])]
        by_cases h5 : d.resourceStr ≠ r.resourceStr
        · rw [if_neg h1, if_neg h2, if_neg h3, if_neg h4, if_pos h5, ih,
            if_neg (by simp [lineageKeep, hd, lineageEq, h0', h5])]
        · push_neg at h1 h2 h3 h4 h5
          rw [if_neg (by simp [h1]), if_neg (by simp [h2]), if_neg (by simp [h3]),
            if_neg (by simp [h4]), if_neg (by simp [h5]), ih,
            if_pos (by simp [lineageKeep, hd, lineageEq, h0', h1, h2, h3, h4, h5])]

theorem mem_versionCandidates (fs : RamsesFs) (folder : String) (r : RamsesFileBlocks) :
    ∀ (es : List String) (x : String × Int), x ∈ versionCandidates fs folder r es →
    x.1 ∈ es ∧ lineageKeep fs folder r x.1 = true ∧
      ∃ d, decomposeRamsesFileName x.1 = some d ∧ d.version = x.2 ∧ x.2 ≠ -1 := by
  intro es
  induction es with
  | nil => intro x hx; cases hx
  | cons f rest ih =>
    intro x hx
    rw [versionCandidates] at hx
    split at hx
    next h0 =>
      obtain ⟨hmem, hrest⟩ := ih x hx
      exact ⟨List.mem_cons_of_mem f hmem, hrest⟩
    next h0 =>
      have h0' : fs.isfile (folder ++ "/" ++ f) = true := by
        cases hh : fs.isfile (folder ++ "/" ++ f)
        · exact absurd hh h0
        · rfl
      split at hx
      next hd =>
        obtain ⟨hmem, hrest⟩ := ih x hx
        exact ⟨List.mem_cons_of_mem f hmem, hrest⟩
      next d hd =>
        split_ifs at hx with h1 h2 h3 h4 h5 h6
        · obtain ⟨hmem, hrest⟩ := ih x hx
          exact ⟨List.mem_cons_of_mem f hmem, hrest⟩
        · obtain ⟨hmem, hrest⟩ := ih x hx
          exact ⟨List.mem_cons_of_mem f hmem, hrest⟩
        · obtain ⟨hmem, hrest⟩ := ih x hx
          exact ⟨List.mem_cons_of_mem f hmem, hrest⟩
        · obtain ⟨hmem, hrest⟩ := ih x hx
          exact ⟨List.mem_cons_of_mem f hmem, hrest⟩
        · obtain ⟨hmem, hrest⟩ := ih x hx
          exact ⟨List.mem_cons_of_mem f hmem, hrest⟩
        · obtain ⟨hmem, hrest⟩ := ih x hx
          exact ⟨List.mem_cons_of_mem f hmem, hrest⟩
        · rcases List.mem_cons.1 hx with rfl | hx'
          · refine ⟨List.mem_cons_self _ _, ?_, d, hd, rfl, h6⟩
            push_neg at h1 h2 h3 h4 h5
            simp [lineageKeep, hd, lineageEq, h0', h1, h2, h3, h4, h5]
          · obtain ⟨hmem, hrest⟩ := ih x hx'
            exact ⟨List.mem_cons_of_mem f hmem, hrest⟩

theorem firstWithVersion_mem (folder : String) (m : Int) :
    ∀ cands : List (String × Int), (∃ x ∈ cands, x.2 = m) →
    ∃ x ∈ cands, x.2 = m ∧ firstWithVersion folder m cands = folder ++ "/" ++ x.1 := by
  intro cands
  induction cands with
  | nil => intro hx; simp at hx
  | cons y rest ih =>
    intro hx
    obtain ⟨f, ver⟩ := y
    rw [firstWithVersion]
    by_cases hv : ver = m
    · exact ⟨(f, ver), List.mem_cons_self _ _, hv, by rw [if_pos hv]⟩
    · obtain ⟨x, hxm, hx2⟩ := hx
      rcases List.mem_cons.1 hxm with rfl | hxr
      · exact absurd hx2 hv
      · obtain ⟨z, hz, hz2, hzf⟩ := ih ⟨x, hxr, hx2⟩
        exact ⟨z, List.mem_cons_of_mem _ hz, hz2, by rw [if_neg hv]; exact hzf⟩

theorem foldMaxVersion_realized :
    ∀ (cands : List (String × Int)) (h : Int),
    foldMaxVersion h cands = h ∨ ∃ x ∈ cands, x.2 = foldMaxVersion h cands := by
  intro cands
  induction cands with
  | nil => intro h; exact Or.inl rfl
  | cons y rest ih =>
    intro h
    obtain ⟨f, ver⟩ := y
    rw [foldMaxVersion_cons]
    rcases ih (max h ver) with heq | ⟨x, hx, hx2⟩
    · rw [heq]
      by_cases hv : h < ver
      · exact Or.inr ⟨(f, ver), List.mem_cons_self _ _, by simp; omega⟩
      · exact Or.inl (by simp; omega)
    · exact Or.inr ⟨x, List.mem_cons_of_mem _ hx, hx2⟩

/-! ## Theorems: the lineage filter (claim C5) -/

/-- C5 (counterexample): a plain save file (no version block, decoded
version `-1`) mixed into the versions folder and agreeing with the
reference on the five lineage fields **is** collected by
`getVersionFilePaths`, so the claimed `iff` (which requires the decoded
version to differ from the sentinel `-1`) fails for that scan. -/
theorem getVersionFilePaths_keepsSentinel_cex :
    getVersionFilePaths
      ⟨fun _ => ["FPE_A_TRI_MOD.blend"], fun _ => true, fun _ => 0, 0⟩
      "w/FPE_A_TRI_MOD.blend" = .ok ["w/_versions/FPE_A_TRI_MOD.blend"] ∧
    (decomposeRamsesFileName "FPE_A_TRI_MOD.blend").map RamsesFileBlocks.version =
      some (-1) := by
  constructor <;> rfl

/-- C5 (amended): a listed entry is kept by `getVersionFilePaths` iff it
is a regular file whose name decomposes and agrees with the reference on
the five lineage fields — with **no** exclusion of the sentinel version
`-1`; `getLatestVersionFilePath` applies the same five-field filter and
additionally excludes the sentinel (every non-empty result decodes with
`version ≠ -1`); and the five-field equality forces equal steps, so two
files differing only in step are never siblings for either scan. -/
theorem lineageFilter_characterization (fs : RamsesFs) (p : String) (r : RamsesFileBlocks)
    (hr : decomposeRamsesFileName (pathBasename p) = some r) :
    (∀ l, getVersionFilePaths fs p = .ok l →
      ∀ q, q ∈ l ↔ ∃ f ∈ fs.listdir (getVersionFolder p),
        q = getVersionFolder p ++ "/" ++ f ∧
        lineageKeep fs (getVersionFolder p) r f = true) ∧
    (∀ d, lineageEq d r = true → d.ramStep = r.ramStep) ∧
    (∀ s, getLatestVersionFilePath fs p false = .ok s → s ≠ "" →
      ∃ f ∈ fs.listdir (getVersionFolder p),
        s = getVersionFolder p ++ "/" ++ f ∧
        lineageKeep fs (getVersionFolder p) r f = true ∧
        ∃ d, decomposeRamsesFileName f = some d ∧ d.version ≠ -1) := by
  refine ⟨?_, ?_, ?_⟩
  · intro l hl q
    rw [getVersionFilePaths, hr, collectScan_eq_map] at hl
    cases hl
    rw [(pyListSort_perm versionFilesSorterKey _).mem_iff, List.mem_map,
      lineageCandidates_eq_filter]
    constructor
    · rintro ⟨f, hf, rfl⟩
      obtain ⟨hfe, hfk⟩ := List.mem_filter.1 hf
      exact ⟨f, hfe, rfl, hfk⟩
    · rintro ⟨f, hfe, rfl, hfk⟩
      exact ⟨f, List.mem_filter.2 ⟨hfe, hfk⟩, rfl⟩
  · intro d hd
    simp only [lineageEq, Bool.and_eq_true, decide_eq_true_eq] at hd
    exact hd.1.2
  · intro s hs hne
    rw [getLatestVersionFilePath_sel fs p r hr,
      foldl_latestStep_select (getVersionFolder p) _ 0 "" ""] at hs
    cases hs
    by_cases hpos : 0 < foldMaxVersion 0 (versionCandidates fs (getVersionFolder p) r
        (fs.listdir (getVersionFolder p)))
    · rw [if_pos hpos] at hne ⊢
      have hM : foldMaxVersion 0 (versionCandidates fs (getVersionFolder p) r
          (fs.listdir (getVersionFolder p))) ≠ 0 := by omega
      rcases foldMaxVersion_realized (versionCandidates fs (getVersionFolder p) r
          (fs.listdir (getVersionFolder p))) 0 with heq | hex
      · exact absurd heq hM
      · obtain ⟨x, hx, hx2, hxf⟩ := firstWithVersion_mem (getVersionFolder p) _ _ hex
        obtain ⟨hmem, hkeep, d, hd, hdv, hne1⟩ :=
          mem_versionCandidates fs (getVersionFolder p) r _ x hx
        exact ⟨x.1, hmem, hxf, hkeep, d, hd, by omega⟩
    · rw [if_neg hpos] at hne
      exact absurd rfl hne

/-- Witness for `lineageFilter_characterization` on a concrete folder. -/
theorem lineageFilter_characterization_witness :
    ∃ f ∈ ["FPE_A_TRI_MOD_v002.blend"],
      "w/_versions/FPE_A_TRI_MOD_v002.blend" = "w/_versions" ++ "/" ++ f ∧
      lineageKeep ⟨fun _ => ["FPE_A_TRI_MOD_v002.blend"], fun _ => true, fun _ => 0, 0⟩
        "w/_versions" ⟨"FPE", some "A", "TRI", "MOD", "", "", -1, "blend"⟩ f = true ∧
      ∃ d, decomposeRamsesFileName f = some d ∧ d.version ≠ -1 :=
  (lineageFilter_characterization
    ⟨fun _ => ["FPE_A_TRI_MOD_v002.blend"], fun _ => true, fun _ => 0, 0⟩
    "w/FPE_A_TRI_MOD.blend" ⟨"FPE", some "A", "TRI", "MOD", "", "", -1, "blend"⟩
    (by rfl)).2.2 "w/_versions/FPE_A_TRI_MOD_v002.blend" (by rfl) (by decide)

/-! ## Theorems: numeric version ordering (claim C6) -/

/-- C6 (confirmed): `getVersionFilePaths` returns exactly the candidates
passing the lineage filter, sorted in ascending order of the decoded
*integer* version of the basename (the sort key of
`_versionFilesSorter`), not lexicographically. -/
theorem getVersionFilePaths_sortedByVersion (fs : RamsesFs) (p : String)
    (r : RamsesFileBlocks)
    (hr : decomposeRamsesFileName (pathBasename p) = some r) :
    ∀ l, getVersionFilePaths fs p = .ok l →
      l.Pairwise (fun a b => versionFilesSorterKey a ≤ versionFilesSorterKey b) ∧
      l.Perm (((fs.listdir (getVersionFolder p)).filter
        (lineageKeep fs (getVersionFolder p) r)).map
          (fun f => getVersionFolder p ++ "/" ++ f)) := by
  intro l hl
  rw [getVersionFilePaths, hr, collectScan_eq_map] at hl
  cases hl
  refine ⟨pyListSort_sorted versionFilesSorterKey _, ?_⟩
  rw [lineageCandidates_eq_filter]
  exact pyListSort_perm versionFilesSorterKey _

/-- Witness for `getVersionFilePaths_sortedByVersion`: a lineage holding
versions `{1, 2, 9, 10}` comes back in exactly that numeric order (a
lexicographic sort would put `10` before `2` and `9`). -/
theorem getVersionFilePaths_sortedByVersion_witness :
    getVersionFilePaths
      ⟨fun _ => ["FPE_A_TRI_MOD_v010.blend", "FPE_A_TRI_MOD_v1.blend",
        "FPE_A_TRI_MOD_v9.blend", "FPE_A_TRI_MOD_v002.blend"], fun _ => true,
        fun _ => 0, 0⟩
      "w/FPE_A_TRI_MOD.blend" =
      .ok ["w/_versions/FPE_A_TRI_MOD_v1.blend", "w/_versions/FPE_A_TRI_MOD_v002.blend",
        "w/_versions/FPE_A_TRI_MOD_v9.blend", "w/_versions/FPE_A_TRI_MOD_v010.blend"] ∧
    List.Pairwise (fun a b => versionFilesSorterKey a ≤ versionFilesSorterKey b)
      ["w/_versions/FPE_A_TRI_MOD_v1.blend", "w/_versions/FPE_A_TRI_MOD_v002.blend",
        "w/_versions/FPE_A_TRI_MOD_v9.blend", "w/_versions/FPE_A_TRI_MOD_v010.blend"] :=
  ⟨by rfl,
    (getVersionFilePaths_sortedByVersion
      ⟨fun _ => ["FPE_A_TRI_MOD_v010.blend", "FPE_A_TRI_MOD_v1.blend",
        "FPE_A_TRI_MOD_v9.blend", "FPE_A_TRI_MOD_v002.blend"], fun _ => true,
        fun _ => 0, 0⟩
      "w/FPE_A_TRI_MOD.blend" ⟨"FPE", some "A", "TRI", "MOD", "", "", -1, "blend"⟩
      (by rfl)
      ["w/_versions/FPE_A_TRI_MOD_v1.blend", "w/_versions/FPE_A_TRI_MOD_v002.blend",
        "w/_versions/FPE_A_TRI_MOD_v9.blend", "w/_versions/FPE_A_TRI_MOD_v010.blend"]
      (by rfl)).1⟩

/-! ## Theorems: committed version number (claim C7) -/

theorem takeWhile_append_stop (l1 l2 : List Char) (hl1 : ∀ c ∈ l1, c ≠ '/') :
    (l1 ++ '/' :: l2).takeWhile (fun c => c ≠ '/') = l1 := by
  induction l1 with
  | nil => simp [List.takeWhile]
  | cons c rest ih =>
    have hc : c ≠ '/' := hl1 c (List.mem_cons_self _ _)
    rw [List.cons_append, List.takeWhile_cons, if_pos (by simp [hc]),
      ih (fun x hx => hl1 x (List.mem_cons_of_mem _ hx))]

theorem pathBasename_append (folder f : String) (hf : ∀ c ∈ f.toList, c ≠ '/') :
    pathBasename (folder ++ "/" ++ f) = f := by
  have hdata : (folder ++ "/" ++ f).toList = folder.toList ++ '/' :: f.toList := by
    show (folder ++ "/" ++ f).data = folder.data ++ '/' :: f.data
    rw [String.data_append, String.data_append, List.append_assoc]
    rfl
  rw [pathBasename, hdata, List.reverse_append, List.reverse_cons, List.append_assoc,
    List.singleton_append,
    takeWhile_append_stop f.toList.reverse folder.toList.reverse
      (fun c hc => hf c (List.mem_reverse.1 hc)),
    List.reverse_reverse]
  rfl

theorem strAppendSlash_data (folder f : String) :
    (folder ++ "/" ++ f).data = folder.data ++ '/' :: f.data := by
  rw [String.data_append, String.data_append, List.append_assoc]
  rfl

theorem strAppendSlash_ne_empty (folder f : String) : folder ++ "/" ++ f ≠ "" := by
  intro hcontr
  have h := congrArg String.data hcontr
  rw [strAppendSlash_data] at h
  simp at h

theorem ifFloor_eq_max (v : Int) (hv : 0 ≤ v) : (if v ≤ 0 then 1 else v) = max 1 v := by
  rcases le_or_lt v 0 with h | h
  · rw [if_pos h, show v = 0 from le_antisymm h hv, max_eq_left (by omega)]
  · rw [if_neg (by omega), max_eq_right (by omega)]

/-- C7 (confirmed): the committed version number is the base version
(the maximal qualifying sibling version, `0` for an empty lineage) plus
one when `increment` is set, floored at `1`; the state written into the
new name is the explicit `stateShortName` when one is supplied, and
otherwise the state discovered on the latest sibling (empty for an empty
lineage).  The hypothesis on the listing only states that `os.listdir`
returns plain names without a path separator. -/
theorem copyToVersion_versionNumber (fs : RamsesFs) (p : String) (increment : Bool)
    (stateShortName : String) (c : RamsesFileBlocks) (t : String)
    (hfile : fs.isfile p = true)
    (hc : decomposeRamsesFileName (pathBasename p) = some c)
    (ht : c.ramType = some t)
    (hnames : ∀ f ∈ fs.listdir (getVersionFolder p), ∀ ch ∈ f.toList, ch ≠ '/') :
    ∃ S : String,
      copyToVersion fs p increment stateShortName =
        .ok (some (getVersionFolder p ++ "/" ++
          buildRamsesFileName c.projectID c.ramStep c.extension t c.objectShortName
            c.resourceStr
            (max 1 ((if increment then 1 else 0) +
              foldMaxVersion 0 (versionCandidates fs (getVersionFolder p) c
                (fs.listdir (getVersionFolder p))))) S)) ∧
      (stateShortName ≠ "" → S = stateShortName) ∧
      (foldMaxVersion 0 (versionCandidates fs (getVersionFolder p) c
        (fs.listdir (getVersionFolder p))) = 0 → S = stateShortName) ∧
      (stateShortName = "" →
        0 < foldMaxVersion 0 (versionCandidates fs (getVersionFolder p) c
          (fs.listdir (getVersionFolder p))) →
        ∃ f d, firstWithVersion (getVersionFolder p)
            (foldMaxVersion 0 (versionCandidates fs (getVersionFolder p) c
              (fs.listdir (getVersionFolder p))))
            (versionCandidates fs (getVersionFolder p) c
              (fs.listdir (getVersionFolder p))) =
            getVersionFolder p ++ "/" ++ f ∧
          decomposeRamsesFileName f = some d ∧ S = d.state) := by
  have hB0 : 0 ≤ foldMaxVersion 0 (versionCandidates fs (getVersionFolder p) c
      (fs.listdir (getVersionFolder p))) := le_foldMaxVersion 0 _
  by_cases hpos : 0 < foldMaxVersion 0 (versionCandidates fs (getVersionFolder p) c
      (fs.listdir (getVersionFolder p)))
  · have hex : ∃ x ∈ versionCandidates fs (getVersionFolder p) c
        (fs.listdir (getVersionFolder p)), x.2 =
        foldMaxVersion 0 (versionCandidates fs (getVersionFolder p) c
          (fs.listdir (getVersionFolder p))) := by
      rcases foldMaxVersion_realized (versionCandidates fs (getVersionFolder p) c
          (fs.listdir (getVersionFolder p))) 0 with heq | hex
      · omega
      · exact hex
    obtain ⟨x, hx, hx2, hxf⟩ := firstWithVersion_mem (getVersionFolder p) _ _ hex
    obtain ⟨hmem, hkeep, d, hd, hdv, hver⟩ :=
      mem_versionCandidates fs (getVersionFolder p) c _ x hx
    have hlv : getLatestVersionFilePath fs p false =
        .ok (getVersionFolder p ++ "/" ++ x.1) := by
      rw [getLatestVersionFilePath_sel fs p c hc,
        foldl_latestStep_select (getVersionFolder p) _ 0 "" "", if_pos hpos, hxf]
    have hglv : getLatestVersion fs p stateShortName false =
        .ok (d.version, d.state, fs.mtime (getVersionFolder p ++ "/" ++ x.1)) := by
      rw [getLatestVersion, hlv]
      show (if (getVersionFolder p ++ "/" ++ x.1) = "" then
          (Except.ok (0, stateShortName, fs.now) : Except PyErr (Int × String × Int))
        else
          match decomposeRamsesFileName (pathBasename (getVersionFolder p ++ "/" ++ x.1)) with
          | none => Except.ok (0, stateShortName, fs.now)
          | some d => Except.ok (d.version, d.state,
              fs.mtime (getVersionFolder p ++ "/" ++ x.1))) = _
      rw [if_neg (strAppendSlash_ne_empty _ _),
        pathBasename_append (getVersionFolder p) x.1 (hnames x.1 hmem), hd]
    refine ⟨if stateShortName = "" then d.state else stateShortName, ?_, ?_, ?_, ?_⟩
    · rw [copyToVersion, if_neg (by simp [hfile])]
      simp only [hc, hglv, ht]
      have hVN : (if (if increment then d.version + 1 else d.version) ≤ 0 then 1
          else (if increment then d.version + 1 else d.version)) =
          max 1 ((if increment then 1 else 0) +
            foldMaxVersion 0 (versionCandidates fs (getVersionFolder p) c
              (fs.listdir (getVersionFolder p)))) := by
        rw [hdv, hx2]
        rw [show (if increment then foldMaxVersion 0 (versionCandidates fs
            (getVersionFolder p) c (fs.listdir (getVersionFolder p))) + 1
          else foldMaxVersion 0 (versionCandidates fs (getVersionFolder p) c
            (fs.listdir (getVersionFolder p)))) =
          (if increment then 1 else 0) +
            foldMaxVersion 0 (versionCandidates fs (getVersionFolder p) c
              (fs.listdir (getVersionFolder p))) by
          cases increment <;> (simp; try omega)]
        exact ifFloor_eq_max _ (by cases increment <;> (simp; try omega))
      rw [hVN]
    · intro hst
      rw [if_neg hst]
    · intro hB
      omega
    · intro hst hpos2
      exact ⟨x.1, d, hxf, hd, by rw [if_pos hst]⟩
  · have hB : foldMaxVersion 0 (versionCandidates fs (getVersionFolder p) c
        (fs.listdir (getVersionFolder p))) = 0 := by omega
    have hlv : getLatestVersionFilePath fs p false = .ok "" := by
      rw [getLatestVersionFilePath_sel fs p c hc,
        foldl_latestStep_select (getVersionFolder p) _ 0 "" "", if_neg hpos]
    have hglv : getLatestVersion fs p stateShortName false =
        .ok (0, stateShortName, fs.now) := by
      rw [getLatestVersion, hlv]
      show (if ("" : String) = "" then
          (Except.ok (0, stateShortName, fs.now) : Except PyErr (Int × String × Int))
        else
          match decomposeRamsesFileName (pathBasename "") with
          | none => Except.ok (0, stateShortName, fs.now)
          | some d => Except.ok (d.version, d.state, fs.mtime "")) = _
      rw [if_pos rfl]
    refine ⟨stateShortName, ?_, fun _ => rfl, fun _ => rfl, fun _ hpos2 => absurd hpos2 hpos⟩
    rw [copyToVersion, if_neg (by simp [hfile])]
    simp only [hc, hglv, ht]
    have hVN : (if (if increment then (0 : Int) + 1 else 0) ≤ 0 then 1
        else (if increment then (0 : Int) + 1 else 0)) =
        max 1 ((if increment then 1 else 0) +
          foldMaxVersion 0 (versionCandidates fs (getVersionFolder p) c
            (fs.listdir (getVersionFolder p)))) := by
      rw [hB]
      cases increment <;> simp
    rw [hVN]
    have hS : (if stateShortName = "" then stateShortName else stateShortName) =
        stateShortName := by
      split <;> rfl
    rw [hS]

/-- Witness for `copyToVersion_versionNumber`: an empty versions folder
commits version 1 with or without `increment`, and a highest sibling at
version 9 with `increment` commits version 10 (here with an explicit
state `OK`). -/
theorem copyToVersion_versionNumber_witness :
    copyToVersion ⟨fun _ => [], fun _ => true, fun _ => 0, 0⟩
      "w/FPE_A_TRI_MOD.blend" true "" =
      .ok (some "w/_versions/FPE_A_TRI_MOD_1.blend") ∧
    copyToVersion ⟨fun _ => [], fun _ => true, fun _ => 0, 0⟩
      "w/FPE_A_TRI_MOD.blend" false "" =
      .ok (some "w/_versions/FPE_A_TRI_MOD_1.blend") ∧
    copyToVersion ⟨fun _ => ["FPE_A_TRI_MOD_wip9.blend"], fun _ => true, fun _ => 0, 0⟩
      "w/FPE_A_TRI_MOD.blend" true "OK" =
      .ok (some "w/_versions/FPE_A_TRI_MOD_OK10.blend") := by
  refine ⟨?_, ?_, ?_⟩
  · obtain ⟨S, h1, _, h3, _⟩ := copyToVersion_versionNumber
      ⟨fun _ => [], fun _ => true, fun _ => 0, 0⟩ "w/FPE_A_TRI_MOD.blend" true ""
      ⟨"FPE", some "A", "TRI", "MOD", "", "", -1, "blend"⟩ "A" (by rfl) (by rfl) (by rfl)
      (by intro f hf; cases hf)
    rw [h3 (by rfl)] at h1
    exact h1.trans (by rfl)
  · obtain ⟨S, h1, _, h3, _⟩ := copyToVersion_versionNumber
      ⟨fun _ => [], fun _ => true, fun _ => 0, 0⟩ "w/FPE_A_TRI_MOD.blend" false ""
      ⟨"FPE", some "A", "TRI", "MOD", "", "", -1, "blend"⟩ "A" (by rfl) (by rfl) (by rfl)
      (by intro f hf; cases hf)
    rw [h3 (by rfl)] at h1
    exact h1.trans (by rfl)
  · obtain ⟨S, h1, h2, _, _⟩ := copyToVersion_versionNumber
      ⟨fun _ => ["FPE_A_TRI_MOD_wip9.blend"], fun _ => true, fun _ => 0, 0⟩
      "w/FPE_A_TRI_MOD.blend" true "OK"
      ⟨"FPE", some "A", "TRI", "MOD", "", "", -1, "blend"⟩ "A" (by rfl) (by rfl) (by rfl)
      (by decide)
    rw [h2 (by decide)] at h1
    exact h1.trans (by rfl)

/-! ## Theorems: round-trip between decode and re-encode (claim C1)

Foundational facts about the matcher combinators. -/

theorem orElseO_inv {A : Type} {a b : Option A} {r : A} (h : orElseO a b = some r) :
    a = some r ∨ (a = none ∧ b = some r) := by
  cases a with
  | some x => left; simpa [orElseO] using h
  | none => right; exact ⟨rfl, by simpa [orElseO] using h⟩

theorem orElseO_some {A : Type} {a : Option A} {r : A} (b : Option A)
    (h : a = some r) : orElseO a b = some r := by
  rw [h]; rfl

theorem orElseO_none {A : Type} {a b : Option A} (h : a = none) :
    orElseO a b = b := by
  rw [h]; rfl

theorem icaseEqChar_symm (a b : Char) : icaseEqChar a b = icaseEqChar b a := by
  simp only [icaseEqChar]
  exact decide_eq_decide.mpr eq_comm

theorem icaseEqList_length : ∀ (s tok : List Char),
    icaseEqList s tok = true → s.length = tok.length := by
  intro s
  induction s with
  | nil => intro tok h; cases tok with
    | nil => rfl
    | cons b bs => exact absurd h (by simp [icaseEqList])
  | cons a as ih =>
    intro tok h
    cases tok with
    | nil => exact absurd h (by simp [icaseEqList])
    | cons b bs =>
      simp only [icaseEqList, Bool.and_eq_true] at h
      simpa using ih bs h.2

theorem lowerChar_of_digit {d : Char} (h : isDigitChar d = true) :
    lowerChar d = d := by
  simp only [isDigitChar, Bool.and_eq_true, decide_eq_true_eq] at h
  simp only [lowerChar]
  rw [if_neg]
  omega

theorem icaseEqChar_digit_false {a d : Char} (hd : isDigitChar d = true)
    (ha : isDigitChar (lowerChar a) = false) : icaseEqChar a d = false := by
  simp only [icaseEqChar, decide_eq_false_iff_not]
  intro heq
  rw [lowerChar_of_digit hd] at heq
  rw [heq] at ha
  rw [hd] at ha
  cases ha

theorem isASChar_of_isGChar_false {gc : Char} (h : isGChar gc = true) :
    isASChar gc = false := by
  simp only [isGChar, icaseEqChar, decide_eq_true_eq] at h
  simp only [isASChar, icaseEqChar, h, Bool.or_eq_false_iff, decide_eq_false_iff_not]
  exact ⟨by decide, by decide⟩

theorem icaseEq_trans_ne {a b c0 : Char} (h1 : icaseEqChar c0 a = true)
    (h2 : icaseEqChar b a = false) : icaseEqChar b c0 = false := by
  simp only [icaseEqChar, decide_eq_true_eq, decide_eq_false_iff_not] at *
  rw [h1]
  exact h2

theorem versionPrefixTokens_headsOK : toksHeadsOK versionPrefixTokens := by
  constructor
  · decide
  · decide

theorem versionPrefixTokens_headsNonDigit :
    ∀ tok ∈ versionPrefixTokens, tok ≠ [] ∧
      isDigitChar (lowerChar (tok.headD ' ')) = false := by decide

theorem versionPrefixTokens_chars_vs_sep :
    ∀ tok ∈ versionPrefixTokens, ∀ ch ∈ tok,
      icaseEqChar ch '_' = false ∧ icaseEqChar ch '.' = false := by decide

/-! Forward lemmas: under the stop conditions the greedy combinators
follow exactly the intended split of the input, so a success of the
continuation there is the value of the whole match. -/

theorem reMatchRepAux_exact {A : Type} (cls : Char → Bool) :
    ∀ (cap : List Char) (fuel : Nat) (acc rest : List Char)
      (k : List Char → List Char → Option A) (r : A),
      cap.length ≤ fuel → (∀ c ∈ cap, cls c = true) → stopClass cls rest = true →
      k (acc.reverse ++ cap) rest = some r →
      reMatchRepAux cls fuel acc (cap ++ rest) k = some r := by
  intro cap
  induction cap with
  | nil =>
    intro fuel acc rest k r _ _ hstop hk
    cases fuel with
    | zero => simpa using hk
    | succ f =>
      cases rest with
      | nil => simpa using hk
      | cons c l =>
        simp only [stopClass, Bool.not_eq_true'] at hstop
        simp only [List.nil_append, reMatchRepAux, hstop]
        simpa using hk
  | cons c2 cap' ih =>
    intro fuel acc rest k r hlen hcls hstop hk
    cases fuel with
    | zero => simp at hlen
    | succ f =>
      have hc2 : cls c2 = true := hcls c2 (by simp)
      show reMatchRepAux cls (f + 1) acc (c2 :: (cap' ++ rest)) k = some r
      rw [reMatchRepAux, if_pos hc2]
      refine orElseO_some _ (ih f (c2 :: acc) rest k r (by simpa using hlen)
        (fun c hc => hcls c (List.mem_cons_of_mem _ hc)) hstop ?_)
      simpa [List.append_assoc] using hk

theorem reMatchRep1_exact {A : Type} (cls : Char → Bool) (maxLen : Nat)
    (cap rest : List Char) (k : List Char → List Char → Option A) (r : A)
    (hne : cap ≠ []) (hlen : cap.length ≤ maxLen)
    (hcls : ∀ c ∈ cap, cls c = true) (hstop : stopClass cls rest = true)
    (hk : k cap rest = some r) :
    reMatchRep1 cls maxLen (cap ++ rest) k = some r := by
  cases cap with
  | nil => exact absurd rfl hne
  | cons c cap' =>
    have hc : cls c = true := hcls c (by simp)
    show reMatchRep1 cls maxLen (c :: (cap' ++ rest)) k = some r
    rw [reMatchRep1, if_pos hc]
    refine reMatchRepAux_exact cls cap' (maxLen - 1) [c] rest k r
      (by simp at hlen; omega)
      (fun x hx => hcls x (List.mem_cons_of_mem _ hx)) hstop ?_
    simpa using hk

theorem reMatchPlusAux_exact {A : Type} (cls : Char → Bool) :
    ∀ (cap : List Char) (acc rest : List Char)
      (k : List Char → List Char → Option A) (r : A),
      (∀ c ∈ cap, cls c = true) → stopClass cls rest = true →
      k (acc.reverse ++ cap) rest = some r →
      reMatchPlusAux cls acc (cap ++ rest) k = some r := by
  intro cap
  induction cap with
  | nil =>
    intro acc rest k r _ hstop hk
    cases rest with
    | nil => simpa using hk
    | cons c l =>
      simp only [stopClass, Bool.not_eq_true'] at hstop
      simp only [List.nil_append, reMatchPlusAux, hstop]
      simpa using hk
  | cons c2 cap' ih =>
    intro acc rest k r hcls hstop hk
    have hc2 : cls c2 = true := hcls c2 (by simp)
    show reMatchPlusAux cls acc (c2 :: (cap' ++ rest)) k = some r
    rw [reMatchPlusAux, if_pos hc2]
    refine orElseO_some _ (ih (c2 :: acc) rest k r
      (fun c hc => hcls c (List.mem_cons_of_mem _ hc)) hstop ?_)
    simpa [List.append_assoc] using hk

theorem reMatchPlus_exact {A : Type} (cls : Char → Bool)
    (cap rest : List Char) (k : List Char → List Char → Option A) (r : A)
    (hne : cap ≠ []) (hcls : ∀ c ∈ cap, cls c = true)
    (hstop : stopClass cls rest = true) (hk : k cap rest = some r) :
    reMatchPlus cls (cap ++ rest) k = some r := by
  cases cap with
  | nil => exact absurd rfl hne
  | cons c cap' =>
    have hc : cls c = true := hcls c (by simp)
    show reMatchPlus cls (c :: (cap' ++ rest)) k = some r
    rw [reMatchPlus, if_pos hc]
    refine reMatchPlusAux_exact cls cap' [c] rest k r
      (fun x hx => hcls x (List.mem_cons_of_mem _ hx)) hstop ?_
    simpa using hk

theorem icasePrefix_of_icaseEqList :
    ∀ (s tok rest : List Char), icaseEqList s tok = true →
      icasePrefix tok (s ++ rest) = some (s, rest) := by
  intro s
  induction s with
  | nil =>
    intro tok rest h
    cases tok with
    | nil => rfl
    | cons b bs => exact absurd h (by simp [icaseEqList])
  | cons a as ih =>
    intro tok rest h
    cases tok with
    | nil => exact absurd h (by simp [icaseEqList])
    | cons b bs =>
      simp only [icaseEqList, Bool.and_eq_true] at h
      show icasePrefix (b :: bs) (a :: (as ++ rest)) = some (a :: as, rest)
      rw [icasePrefix, if_pos (by rw [icaseEqChar_symm]; exact h.1),
        ih bs rest h.2]

theorem icasePrefix_head_mismatch {t0 c0 : Char} (ts l : List Char)
    (h : icaseEqChar t0 c0 = false) : icasePrefix (t0 :: ts) (c0 :: l) = none := by
  rw [icasePrefix, if_neg]
  simp [h]

theorem reMatchAlt_exact {A : Type} :
    ∀ (toks : List (List Char)) (tok sL rest : List Char)
      (k : List Char → List Char → Option A) (r : A),
      toksHeadsOK toks → tok ∈ toks → icaseEqList sL tok = true →
      k sL rest = some r →
      reMatchAlt toks (sL ++ rest) k = some r := by
  intro toks
  induction toks with
  | nil => intro tok _ _ _ _ _ htok; exact absurd htok (List.not_mem_nil _)
  | cons t1 ts ih =>
    intro tok sL rest k r hOK htok hs hk
    by_cases heq : t1 = tok
    · subst heq
      rw [reMatchAlt, icasePrefix_of_icaseEqList sL t1 rest hs]
      exact orElseO_some _ hk
    · have htok' : tok ∈ ts := by
        cases htok with
        | head => exact absurd rfl heq
        | tail _ h => exact h
      have ht1ne : t1 ≠ [] := hOK.1 t1 (by simp)
      have htokne : tok ≠ [] := hOK.1 tok (List.mem_cons_of_mem _ htok')
      obtain ⟨c1, t1', rfl⟩ := List.exists_cons_of_ne_nil ht1ne
      obtain ⟨b, bs, rfl⟩ := List.exists_cons_of_ne_nil htokne
      have hsne : sL ≠ [] := by
        intro hnil
        rw [hnil] at hs
        exact absurd hs (by simp [icaseEqList])
      obtain ⟨s0, sL', rfl⟩ := List.exists_cons_of_ne_nil hsne
      have hs0 : icaseEqChar s0 b = true := by
        simp only [icaseEqList, Bool.and_eq_true] at hs
        exact hs.1
      have hheads : lowerChar c1 ≠ lowerChar b := by
        have := hOK.2 (c1 :: t1') (by simp) (b :: bs)
          (List.mem_cons_of_mem _ htok') heq
        simpa using this
      have hc1 : icaseEqChar c1 s0 = false := by
        refine icaseEq_trans_ne (a := b) ?_ ?_
        · exact hs0
        · simp only [icaseEqChar, decide_eq_false_iff_not]
          exact hheads
      show reMatchAlt ((c1 :: t1') :: ts) (s0 :: (sL' ++ rest)) k = some r
      rw [reMatchAlt, icasePrefix_head_mismatch t1' (sL' ++ rest) hc1]
      exact ih (b :: bs) (s0 :: sL') rest k r
        ⟨fun t ht => hOK.1 t (List.mem_cons_of_mem _ ht),
         fun t ht u hu => hOK.2 t (List.mem_cons_of_mem _ ht) u
           (List.mem_cons_of_mem _ hu)⟩
        htok' hs hk

theorem reMatchAlt_none_of_digit {A : Type} :
    ∀ (toks : List (List Char)) (d : Char) (l : List Char)
      (k : List Char → List Char → Option A),
      isDigitChar d = true →
      (∀ tok ∈ toks, tok ≠ [] ∧ isDigitChar (lowerChar (tok.headD ' ')) = false) →
      reMatchAlt toks (d :: l) k = none := by
  intro toks
  induction toks with
  | nil => intro _ _ _ _ _; rfl
  | cons t1 ts ih =>
    intro d l k hd htoks
    obtain ⟨hne, hhead⟩ := htoks t1 (by simp)
    obtain ⟨c1, t1', rfl⟩ := List.exists_cons_of_ne_nil hne
    have hc1 : icaseEqChar c1 d = false :=
      icaseEqChar_digit_false hd (by simpa using hhead)
    rw [reMatchAlt, icasePrefix_head_mismatch t1' l hc1]
    exact ih d l k hd (fun tok ht => htoks tok (List.mem_cons_of_mem _ ht))

theorem icasePrefix_inv :
    ∀ (tok l cap rest : List Char), icasePrefix tok l = some (cap, rest) →
      l = cap ++ rest ∧ icaseEqList cap tok = true := by
  intro tok
  induction tok with
  | nil =>
    intro l cap rest h
    rw [icasePrefix] at h
    injection h with h
    injection h with h1 h2
    subst h1; subst h2
    exact ⟨rfl, rfl⟩
  | cons b bs ih =>
    intro l cap rest h
    cases l with
    | nil => exact absurd h (by rw [icasePrefix]; simp)
    | cons c l' =>
      rw [icasePrefix] at h
      by_cases hbc : icaseEqChar b c = true
      · rw [if_pos hbc] at h
        cases hrec : icasePrefix bs l' with
        | none => rw [hrec] at h; exact absurd h (by simp)
        | some p =>
          obtain ⟨cap', rest'⟩ := p
          rw [hrec] at h
          injection h with h
          injection h with h1 h2
          subst h2
          obtain ⟨hl, hic⟩ := ih l' cap' rest' hrec
          subst hl
          rw [← h1]
          refine ⟨rfl, ?_⟩
        
          simp only [icaseEqList, Bool.and_eq_true]
          exact ⟨by rw [icaseEqChar_symm]; exact hbc, hic⟩
      · rw [if_neg hbc] at h
        cases h

theorem icasePrefix_append :
    ∀ (tok l1 l2 cap rest : List Char), icasePrefix tok l1 = some (cap, rest) →
      icasePrefix tok (l1 ++ l2) = some (cap, rest ++ l2) := by
  intro tok
  induction tok with
  | nil =>
    intro l1 l2 cap rest h
    rw [icasePrefix] at h
    injection h with h
    injection h with h1 h2
    subst h1; subst h2
    rfl
  | cons b bs ih =>
    intro l1 l2 cap rest h
    cases l1 with
    | nil => exact absurd h (by rw [icasePrefix]; simp)
    | cons c l' =>
      rw [icasePrefix] at h
      by_cases hbc : icaseEqChar b c = true
      · rw [if_pos hbc] at h
        cases hrec : icasePrefix bs l' with
        | none => rw [hrec] at h; exact absurd h (by simp)
        | some p =>
          obtain ⟨cap', rest'⟩ := p
          rw [hrec] at h
          injection h with h
          injection h with h1 h2
          subst h2
          show icasePrefix (b :: bs) (c :: (l' ++ l2)) = _
          rw [icasePrefix, if_pos hbc, ih l' l2 cap' rest' hrec, ← h1]
      · rw [if_neg hbc] at h
        cases h

theorem icasePrefix_split :
    ∀ (tok l1 l2 cap rest : List Char),
      icasePrefix tok (l1 ++ l2) = some (cap, rest) →
      (∃ cap1 rest1, icasePrefix tok l1 = some (cap1, rest1) ∧ rest1 ≠ [] ∧
        cap = cap1 ∧ rest = rest1 ++ l2) ∨
      (∃ tokA tokB capB, tok = tokA ++ tokB ∧ icaseEqList l1 tokA = true ∧
        icasePrefix tokB l2 = some (capB, rest) ∧ cap = l1 ++ capB) := by
  intro tok
  induction tok with
  | nil =>
    intro l1 l2 cap rest h
    rw [icasePrefix] at h
    injection h with h
    injection h with h1 h2
    subst h1
    cases l1 with
    | nil =>
      right
      exact ⟨[], [], [], rfl, rfl, by rw [← h2]; rfl, rfl⟩
    | cons c l1' =>
      left
      exact ⟨[], c :: l1', rfl, by simp, rfl, h2.symm⟩
  | cons b bs ih =>
    intro l1 l2 cap rest h
    cases l1 with
    | nil =>
      right
      exact ⟨[], b :: bs, cap, rfl, rfl, h, rfl⟩
    | cons c l1' =>
      rw [List.cons_append, icasePrefix] at h
      by_cases hbc : icaseEqChar b c = true
      · rw [if_pos hbc] at h
        cases hrec : icasePrefix bs (l1' ++ l2) with
        | none => rw [hrec] at h; exact absurd h (by simp)
        | some p =>
          obtain ⟨cap', rest'⟩ := p
          rw [hrec] at h
          injection h with h
          injection h with h1 h2
          subst h2
          rcases ih l1' l2 cap' rest' hrec with
            ⟨cap1, rest1, hpre, hne, hcap, hrest⟩ | ⟨tokA, tokB, capB, htok, hic, hpre, hcap⟩
          · left
            refine ⟨c :: cap1, rest1, ?_, hne, by rw [← h1, hcap], hrest⟩
            rw [icasePrefix, if_pos hbc, hpre]
          · right
            refine ⟨b :: tokA, tokB, capB, by rw [htok]; rfl, ?_, hpre, ?_⟩
            · simp only [icaseEqList, Bool.and_eq_true]
              exact ⟨by rw [icaseEqChar_symm]; exact hbc, hic⟩
            · rw [← h1, hcap]; rfl
      · rw [if_neg hbc] at h
        cases h

theorem startsWithDigit_append_left {l1 : List Char} (l2 : List Char)
    (h : startsWithDigit l1 = true) : startsWithDigit (l1 ++ l2) = true := by
  cases l1 with
  | nil => cases h
  | cons c l => exact h

theorem lookVersionStart_mono (toks : List (List Char)) (l1 l2 : List Char)
    (h : lookVersionStart toks l1 = true) :
    lookVersionStart toks (l1 ++ l2) = true := by
  simp only [lookVersionStart, Bool.or_eq_true, List.any_eq_true] at h ⊢
  rcases h with h | ⟨tok, htok, hm⟩
  · exact Or.inl (startsWithDigit_append_left l2 h)
  · right
    refine ⟨tok, htok, ?_⟩
    cases hp : icasePrefix tok l1 with
    | none => rw [hp] at hm; cases hm
    | some p =>
      obtain ⟨cap, rest⟩ := p
      rw [hp] at hm
      rw [icasePrefix_append tok l1 l2 cap rest hp]
      exact startsWithDigit_append_left l2 hm

theorem lookVersionStart_of_append_false (toks : List (List Char))
    (l1 l2 : List Char)
    (h : lookVersionStart toks (l1 ++ l2) = false) :
    lookVersionStart toks l1 = false := by
  cases hl : lookVersionStart toks l1 with
  | false => rfl
  | true => rw [lookVersionStart_mono toks l1 l2 hl] at h; cases h

/-- Appending a separator-headed suffix cannot create a version-block
lookahead match that the resource characters alone did not have: any
match would either lie inside the resource part or need the separator
to continue a token or be a digit. -/
theorem lookVersionStart_append_false (l1 rest : List Char)
    (hne : l1 ≠ [])
    (hrest : rest = [] ∨ ∃ rc rest', rest = rc :: rest' ∧ isDigitChar rc = false ∧
      ∀ tok ∈ versionPrefixTokens, ∀ ch ∈ tok, icaseEqChar ch rc = false)
    (h : lookVersionStart versionPrefixTokens l1 = false) :
    lookVersionStart versionPrefixTokens (l1 ++ rest) = false := by
  simp only [lookVersionStart, Bool.or_eq_false_iff, List.any_eq_false] at h ⊢
  obtain ⟨hd1, hany⟩ := h
  constructor
  · obtain ⟨c, l1', rfl⟩ := List.exists_cons_of_ne_nil hne
    exact hd1
  · intro tok htok hcontra
    cases hp : icasePrefix tok (l1 ++ rest) with
    | none => rw [hp] at hcontra; cases hcontra
    | some p =>
      obtain ⟨cap, rest2⟩ := p
      rw [hp] at hcontra
      rcases icasePrefix_split tok l1 rest cap rest2 hp with
        ⟨cap1, rest1, hpre, hne1, _, hrest2⟩ | ⟨tokA, tokB, capB, htokeq, _, hpre2, _⟩
      · refine hany tok htok ?_
        rw [hpre]
        obtain ⟨r0, rest1', rfl⟩ := List.exists_cons_of_ne_nil hne1
        rw [hrest2] at hcontra
        exact hcontra
      · cases tokB with
        | nil =>
          rw [icasePrefix] at hpre2
          injection hpre2 with hpre2
          injection hpre2 with _ hr2
          subst hr2
          rcases hrest with rfl | ⟨rc, rest', rfl, hrc, _⟩
          · cases hcontra
          · have hcontra' : isDigitChar rc = true := hcontra
            rw [hrc] at hcontra'
            cases hcontra'
        | cons t0 ts =>
          rcases hrest with rfl | ⟨rc, rest', rfl, _, htokchars⟩
          · rw [icasePrefix] at hpre2
            cases hpre2
          · have ht0 : t0 ∈ tok := by
              rw [htokeq]
              exact List.mem_append_right _ (by simp)
            rw [icasePrefix_head_mismatch ts rest'
              (htokchars tok htok t0 ht0)] at hpre2
            cases hpre2

/-! Decimal rendering: `natDigits` produces non-empty all-digit lists
whose value `digitsVal` reads back. -/

theorem toNat_charOfNat {n : Nat} (h : n < 55296) : (Char.ofNat n).toNat = n := by
  have hv : n.isValidChar := Or.inl h
  rw [Char.ofNat, dif_pos hv]
  rfl

theorem isDigitChar_digit {k : Nat} (h : k ≤ 9) :
    isDigitChar (Char.ofNat (48 + k)) = true := by
  simp only [isDigitChar, Bool.and_eq_true, decide_eq_true_eq]
  rw [toNat_charOfNat (by omega)]
  omega

theorem natDigitsAux_acc : ∀ (fuel n : Nat) (acc : List Char),
    natDigitsAux fuel n acc = natDigitsAux fuel n [] ++ acc := by
  intro fuel
  induction fuel with
  | zero => intro n acc; rfl
  | succ f ih =>
    intro n acc
    by_cases h : n < 10
    · rw [natDigitsAux, natDigitsAux, if_pos h, if_pos h]; rfl
    · rw [natDigitsAux, natDigitsAux, if_neg h, if_neg h,
        ih (n / 10) (Char.ofNat (48 + n % 10) :: acc),
        ih (n / 10) [Char.ofNat (48 + n % 10)], List.append_assoc]
      rfl

theorem natDigitsAux_fuel : ∀ (n f1 f2 : Nat), n < f1 → n < f2 →
    natDigitsAux f1 n [] = natDigitsAux f2 n [] := by
  intro n
  induction n using Nat.strong_induction_on with
  | _ n ih =>
    intro f1 f2 h1 h2
    obtain ⟨f1', rfl⟩ : ∃ f1', f1 = f1' + 1 := ⟨f1 - 1, by omega⟩
    obtain ⟨f2', rfl⟩ : ∃ f2', f2 = f2' + 1 := ⟨f2 - 1, by omega⟩
    by_cases h : n < 10
    · rw [natDigitsAux, natDigitsAux, if_pos h, if_pos h]
    · have hdiv : n / 10 < n := Nat.div_lt_self (by omega) (by omega)
      rw [natDigitsAux, natDigitsAux, if_neg h, if_neg h,
        natDigitsAux_acc f1' (n / 10) _, natDigitsAux_acc f2' (n / 10) _,
        ih (n / 10) hdiv f1' f2' (by omega) (by omega)]

theorem natDigits_lt10 {n : Nat} (h : n < 10) :
    natDigits n = [Char.ofNat (48 + n)] := by
  show natDigitsAux (n + 1) n [] = _
  rw [natDigitsAux, if_pos h]

theorem natDigits_ge10 {n : Nat} (h : ¬ n < 10) :
    natDigits n = natDigits (n / 10) ++ [Char.ofNat (48 + n % 10)] := by
  have hdiv : n / 10 < n := Nat.div_lt_self (by omega) (by omega)
  show natDigitsAux (n + 1) n [] = _
  rw [natDigitsAux, if_neg h, natDigitsAux_acc n (n / 10) _,
    natDigitsAux_fuel (n / 10) n (n / 10 + 1) (by omega) (by omega)]
  rfl

theorem natDigits_ne_nil (n : Nat) : natDigits n ≠ [] := by
  by_cases h : n < 10
  · rw [natDigits_lt10 h]; simp
  · rw [natDigits_ge10 h]; simp

theorem natDigits_all_digits : ∀ n : Nat, ∀ c ∈ natDigits n, isDigitChar c = true := by
  intro n
  induction n using Nat.strong_induction_on with
  | _ n ih =>
    intro c hc
    by_cases h : n < 10
    · rw [natDigits_lt10 h] at hc
      simp only [List.mem_singleton] at hc
      subst hc
      exact isDigitChar_digit (by omega)
    · rw [natDigits_ge10 h] at hc
      rcases List.mem_append.mp hc with hm | hm
      · exact ih (n / 10) (Nat.div_lt_self (by omega) (by omega)) c hm
      · simp only [List.mem_singleton] at hm
        subst hm
        exact isDigitChar_digit (by omega)

theorem digitsVal_append_digit (l : List Char) (d : Char) :
    digitsVal (l ++ [d]) = digitsVal l * 10 + Int.ofNat (d.toNat - 48) := by
  simp [digitsVal, List.foldl_append]

theorem digitsVal_natDigits : ∀ n : Nat, digitsVal (natDigits n) = (n : Int) := by
  intro n
  induction n using Nat.strong_induction_on with
  | _ n ih =>
    by_cases h : n < 10
    · rw [natDigits_lt10 h]
      show (0 : Int) * 10 + Int.ofNat ((Char.ofNat (48 + n)).toNat - 48) = _
      rw [toNat_charOfNat (by omega)]
      simp only [Int.ofNat_eq_coe]
      push_cast
      omega
    · rw [natDigits_ge10 h, digitsVal_append_digit,
        ih (n / 10) (Nat.div_lt_self (by omega) (by omega)),
        toNat_charOfNat (show 48 + n % 10 < 55296 by omega)]
      simp only [Int.ofNat_eq_coe]
      push_cast
      omega

theorem digitsVal_nonneg (l : List Char) : 0 ≤ digitsVal l := by
  suffices h : ∀ a : Int, 0 ≤ a →
      0 ≤ l.foldl (fun a c => a * 10 + Int.ofNat (c.toNat - 48)) a by
    exact h 0 le_rfl
  induction l with
  | nil => intro a ha; simpa using ha
  | cons c l ih =>
    intro a ha
    simp only [List.foldl_cons]
    exact ih _ (add_nonneg (mul_nonneg ha (by norm_num)) (Int.ofNat_nonneg _))

theorem intToStr_nonneg {v : Int} (h : 0 ≤ v) :
    (intToStr v).toList = natDigits v.toNat := by
  rw [intToStr, if_neg (by omega)]
  rfl

/-! String-level helpers and `_fixResourceStr` on clean resource
strings. -/

theorem strMk_toList (l : List Char) : (String.mk l).toList = l := rfl

theorem strToList_mk (s : String) : String.mk s.toList = s := rfl

theorem strToList_append (a b : String) : (a ++ b).toList = a.toList ++ b.toList :=
  String.data_append a b

theorem strToList_ne_nil {s : String} (h : s.toList ≠ []) : s ≠ "" := by
  intro hs
  rw [hs] at h
  exact h rfl

theorem fixChar_id {ch : Char} (h : isResChar ch = true) : fixChar ch = ch := by
  have h1 : ch ≠ '"' := fun he => absurd (he ▸ h) (by decide)
  have h2 : ch ≠ '_' := fun he => absurd (he ▸ h) (by decide)
  have h3 : ch ≠ '[' := fun he => absurd (he ▸ h) (by decide)
  have h4 : ch ≠ ']' := fun he => absurd (he ▸ h) (by decide)
  have h5 : ch ≠ '\x7b' := fun he => absurd (he ▸ h) (by decide)
  have h6 : ch ≠ '\x7d' := fun he => absurd (he ▸ h) (by decide)
  have h7 : ch ≠ '(' := fun he => absurd (he ▸ h) (by decide)
  have h8 : ch ≠ ')' := fun he => absurd (he ▸ h) (by decide)
  have h9 : ch ≠ '\'' := fun he => absurd (he ▸ h) (by decide)
  have h10 : ch ≠ '`' := fun he => absurd (he ▸ h) (by decide)
  have h11 : ch ≠ '.' := fun he => absurd (he ▸ h) (by decide)
  have h12 : ch ≠ '/' := fun he => absurd (he ▸ h) (by decide)
  have h13 : ch ≠ '\\' := fun he => absurd (he ▸ h) (by decide)
  have h14 : ch ≠ ',' := fun he => absurd (he ▸ h) (by decide)
  rw [fixChar, if_neg h1, if_neg h2, if_neg h3, if_neg h4, if_neg h5, if_neg h6,
    if_neg h7, if_neg h8, if_neg h9, if_neg h10, if_neg h11, if_neg h12,
    if_neg h13, if_neg h14]

theorem fixResourceStr_id {s : String}
    (h : ∀ ch ∈ s.toList, isResChar ch = true) : fixResourceStr s = s := by
  rw [fixResourceStr]
  have hm : s.toList.map fixChar = s.toList := by
    rw [List.map_congr_left (fun ch hc => fixChar_id (h ch hc))]
    exact List.map_id _
  rw [hm]
  rfl

/-! Forward lemmas for the three optional blocks of the pattern. -/

theorem matchTypeBlock_AS (tc : Char) (objL rest : List Char)
    (k : Option (List Char) → Option (List Char) → Option (List Char) →
      List Char → Option RamsesGroups) (r : RamsesGroups)
    (htc : isASChar tc = true) (hobj_ne : objL ≠ []) (hobj_len : objL.length ≤ 10)
    (hobj_cls : ∀ c ∈ objL, isIdChar c = true)
    (hstop : stopClass isIdChar rest = true)
    (hk : k (some [tc]) (some objL) none rest = some r) :
    matchTypeBlock (tc :: '_' :: (objL ++ rest)) k = some r := by
  rw [matchTypeBlock]
  refine orElseO_some _ ?_
  rw [if_pos htc]
  exact reMatchRep1_exact isIdChar 10 objL rest _ r hobj_ne hobj_len hobj_cls hstop hk

theorem matchTypeBlock_G (gc : Char) (l2 : List Char)
    (k : Option (List Char) → Option (List Char) → Option (List Char) →
      List Char → Option RamsesGroups) (r : RamsesGroups)
    (hgc : isGChar gc = true)
    (hk : k none none (some [gc]) l2 = some r) :
    matchTypeBlock (gc :: l2) k = some r := by
  show orElseO
    (if isASChar gc then
       (match l2 with
        | '_' :: l3 =>
          reMatchRep1 isIdChar 10 l3 (fun obj rest => k (some [gc]) (some obj) none rest)
        | _ => none)
     else none)
    (if isGChar gc then k none none (some [gc]) l2 else none) = some r
  rw [isASChar_of_isGChar_false hgc]
  rw [orElseO_none (if_neg (show ¬((false : Bool) = true) by simp)), if_pos hgc]
  exact hk

theorem matchResourceTail_present (resL rest : List Char)
    (k : Option (List Char) → List Char → Option RamsesGroups) (r : RamsesGroups)
    (hlook : lookVersionStart versionPrefixTokens (resL ++ rest) = false)
    (hne : resL ≠ []) (hcls : ∀ c ∈ resL, isResChar c = true)
    (hstop : stopClass isResChar rest = true)
    (hk : k (some resL) rest = some r) :
    matchResourceTail ('_' :: (resL ++ rest)) k = some r := by
  rw [matchResourceTail]
  refine orElseO_some _ ?_
  rw [if_neg (by rw [hlook]; simp)]
  exact reMatchPlus_exact isResChar resL rest _ r hne hcls hstop hk

theorem matchResourceTail_blocked (l2 : List Char)
    (k : Option (List Char) → List Char → Option RamsesGroups) (r : RamsesGroups)
    (hlook : lookVersionStart versionPrefixTokens l2 = true)
    (hk : k none ('_' :: l2) = some r) :
    matchResourceTail ('_' :: l2) k = some r := by
  rw [matchResourceTail]
  rw [orElseO_none (if_pos hlook)]
  exact hk

theorem matchResourceTail_dot (l2 : List Char)
    (k : Option (List Char) → List Char → Option RamsesGroups) :
    matchResourceTail ('.' :: l2) k = k none ('.' :: l2) := rfl

theorem matchVersionTail_state (sL dL rest tok : List Char)
    (k : Option (List Char) → Option (List Char) → List Char → Option RamsesGroups)
    (r : RamsesGroups)
    (htok : tok ∈ versionPrefixTokens) (hs : icaseEqList sL tok = true)
    (hd : dL ≠ []) (hdc : ∀ c ∈ dL, isDigitChar c = true)
    (hstop : stopClass isDigitChar rest = true)
    (hk : k (some sL) (some dL) rest = some r) :
    matchVersionTail ('_' :: (sL ++ (dL ++ rest))) k = some r := by
  rw [matchVersionTail]
  refine orElseO_some _ (orElseO_some _ ?_)
  refine reMatchAlt_exact versionPrefixTokens tok sL (dL ++ rest) _ r
    versionPrefixTokens_headsOK htok hs ?_
  exact reMatchPlus_exact isDigitChar dL rest _ r hd hdc hstop hk

theorem matchVersionTail_nostate (dL rest : List Char)
    (k : Option (List Char) → Option (List Char) → List Char → Option RamsesGroups)
    (r : RamsesGroups)
    (hd : dL ≠ []) (hdc : ∀ c ∈ dL, isDigitChar c = true)
    (hstop : stopClass isDigitChar rest = true)
    (hk : k none (some dL) rest = some r) :
    matchVersionTail ('_' :: (dL ++ rest)) k = some r := by
  rw [matchVersionTail]
  refine orElseO_some _ ?_
  obtain ⟨d0, dL', rfl⟩ := List.exists_cons_of_ne_nil hd
  rw [List.cons_append]
  rw [orElseO_none (reMatchAlt_none_of_digit versionPrefixTokens d0 (dL' ++ rest)
    (fun sCap rest3 => reMatchPlus isDigitChar rest3
      (fun dCap rest2 => k (some sCap) (some dCap) rest2))
    (hdc d0 (by simp)) versionPrefixTokens_headsNonDigit)]
  exact reMatchPlus_exact isDigitChar (d0 :: dL') rest
    (fun dCap rest2 => k none (some dCap) rest2) r (by simp) hdc hstop hk

theorem matchVersionTail_dot (l2 : List Char)
    (k : Option (List Char) → Option (List Char) → List Char → Option RamsesGroups) :
    matchVersionTail ('.' :: l2) k = k none none ('.' :: l2) := rfl

/-! Re-matching a rebuilt name, from the inside out: extension tail,
version-and-extension tail, step-and-later tail. -/

theorem extTail_reparse (g2 g3 g4 g6 g7 g8 : Option (List Char))
    (proj stepL extL : List Char)
    (hext_ne : extL ≠ []) (hext_cls : ∀ ch ∈ extL, isExtChar ch = true) :
    reMatchPlus isExtChar extL (fun extCap r9 =>
      if reDollar r9 then
        some (⟨proj, g2, g3, g4, stepL, g6, g7, g8, extCap⟩ : RamsesGroups)
      else none) =
    some (⟨proj, g2, g3, g4, stepL, g6, g7, g8, extL⟩ : RamsesGroups) := by
  have h := reMatchPlus_exact isExtChar extL []
    (fun extCap r9 =>
      if reDollar r9 then
        some (⟨proj, g2, g3, g4, stepL, g6, g7, g8, extCap⟩ : RamsesGroups)
      else none)
    (⟨proj, g2, g3, g4, stepL, g6, g7, g8, extL⟩ : RamsesGroups)
    hext_ne hext_cls rfl rfl
  simpa using h

theorem verExtTail_reparse (g2 g3 g4 g6 : Option (List Char))
    (proj stepL : List Char) (state : String) (ver : Int) (extL : List Char)
    (hsv : (state = "" ∧ ver = -1) ∨ (0 ≤ ver ∧ (state = "" ∨
      ∃ tok ∈ versionPrefixTokens, icaseEqList state.toList tok = true)))
    (hext_ne : extL ≠ []) (hext_cls : ∀ ch ∈ extL, isExtChar ch = true) :
    matchVersionTail (verSeg state ver ++ ('.' :: extL)) (fun g7 g8 r7 =>
      match r7 with
      | '.' :: r8 =>
        reMatchPlus isExtChar r8 (fun extCap r9 =>
          if reDollar r9 then
            some ⟨proj, g2, g3, g4, stepL, g6, g7, g8, extCap⟩
          else none)
      | _ => none) =
    some ⟨proj, g2, g3, g4, stepL, g6, g7Exp state ver, g8Exp ver, extL⟩ := by
  rcases hsv with ⟨hst0, hv0⟩ | ⟨hv, hstate⟩
  · rw [verSeg, if_pos hv0, g7Exp, if_pos hv0, g8Exp, if_pos hv0, List.nil_append,
      matchVersionTail_dot]
    exact extTail_reparse g2 g3 g4 g6 none none proj stepL extL hext_ne hext_cls
  · have hv1 : ¬ ver = -1 := by omega
    rcases hstate with hst0 | ⟨tok, htok, hic⟩
    · rw [verSeg, if_neg hv1, g7Exp, if_neg hv1, if_pos hst0, g8Exp, if_neg hv1,
        hst0]
      show matchVersionTail ('_' :: (([] ++ natDigits ver.toNat) ++ ('.' :: extL))) _ = _
      rw [List.nil_append]
      refine matchVersionTail_nostate (natDigits ver.toNat) ('.' :: extL) _ _
        (natDigits_ne_nil _) (natDigits_all_digits _) rfl ?_
      exact extTail_reparse g2 g3 g4 g6 none (some (natDigits ver.toNat))
        proj stepL extL hext_ne hext_cls
    · have hstne : ¬ state = "" := by
        intro h0
        have hlen := icaseEqList_length _ _ hic
        rw [h0] at hlen
        have htokne : tok ≠ [] := versionPrefixTokens_headsOK.1 tok htok
        cases tok with
        | nil => exact htokne rfl
        | cons a b => simp at hlen
      rw [verSeg, if_neg hv1, g7Exp, if_neg hv1, if_neg hstne, g8Exp, if_neg hv1]
      show matchVersionTail
        ('_' :: ((state.toList ++ natDigits ver.toNat) ++ ('.' :: extL))) _ = _
      rw [List.append_assoc]
      refine matchVersionTail_state state.toList (natDigits ver.toNat) ('.' :: extL)
        tok _ _ htok hic (natDigits_ne_nil _) (natDigits_all_digits _) rfl ?_
      exact extTail_reparse g2 g3 g4 g6 (some state.toList)
        (some (natDigits ver.toNat)) proj stepL extL hext_ne hext_cls

theorem lookVersionStart_verhead (state : String) (ver : Int) (X : List Char)
    (hv : ¬ ver = -1)
    (hsv : (state = "" ∧ ver = -1) ∨ (0 ≤ ver ∧ (state = "" ∨
      ∃ tok ∈ versionPrefixTokens, icaseEqList state.toList tok = true))) :
    lookVersionStart versionPrefixTokens
      ((state.toList ++ natDigits ver.toNat) ++ X) = true := by
  obtain ⟨d0, dl', hdl⟩ := List.exists_cons_of_ne_nil (natDigits_ne_nil ver.toNat)
  have hd0 : isDigitChar d0 = true :=
    natDigits_all_digits ver.toNat d0 (by rw [hdl]; simp)
  rcases hsv with ⟨_, h0⟩ | ⟨_, hstate⟩
  · exact absurd h0 hv
  rcases hstate with hst0 | ⟨tok, htok, hic⟩
  · rw [hst0]
    show lookVersionStart versionPrefixTokens
      ((([] : List Char) ++ natDigits ver.toNat) ++ X) = true
    rw [List.nil_append, hdl]
    simp only [lookVersionStart, Bool.or_eq_true]
    left
    exact hd0
  · rw [List.append_assoc]
    simp only [lookVersionStart, Bool.or_eq_true, List.any_eq_true]
    right
    refine ⟨tok, htok, ?_⟩
    rw [icasePrefix_of_icaseEqList _ _ _ hic, hdl]
    exact hd0

theorem stepTail_reparse (g2 g3 g4 : Option (List Char)) (proj stepL : List Char)
    (res state : String) (ver : Int) (extL : List Char)
    (hstep_ne : stepL ≠ []) (hstep_len : stepL.length ≤ 10)
    (hstep_cls : ∀ ch ∈ stepL, isIdChar ch = true)
    (hres : res = "" ∨ (res.toList ≠ [] ∧ (∀ ch ∈ res.toList, isResChar ch = true) ∧
      lookVersionStart versionPrefixTokens res.toList = false))
    (hsv : (state = "" ∧ ver = -1) ∨ (0 ≤ ver ∧ (state = "" ∨
      ∃ tok ∈ versionPrefixTokens, icaseEqList state.toList tok = true)))
    (hext_ne : extL ≠ []) (hext_cls : ∀ ch ∈ extL, isExtChar ch = true) :
    reMatchRep1 isIdChar 10
      (stepL ++ (resSeg res ++ (verSeg state ver ++ ('.' :: extL))))
      (fun stepCap r5 =>
        matchResourceTail r5 (fun g6 r6 =>
          matchVersionTail r6 (fun g7 g8 r7 =>
            match r7 with
            | '.' :: r8 =>
              reMatchPlus isExtChar r8 (fun extCap r9 =>
                if reDollar r9 then
                  some (⟨proj, g2, g3, g4, stepCap, g6, g7, g8, extCap⟩ : RamsesGroups)
                else none)
            | _ => none))) =
    some (⟨proj, g2, g3, g4, stepL, g6Exp res, g7Exp state ver, g8Exp ver,
      extL⟩ : RamsesGroups) := by
  rcases hres with hres0 | ⟨hres_ne, hres_cls, hres_look⟩
  · subst hres0
    rw [show g6Exp "" = none from rfl, show resSeg "" = [] from rfl, List.nil_append]
    refine reMatchRep1_exact isIdChar 10 stepL (verSeg state ver ++ ('.' :: extL)) _ _
      hstep_ne hstep_len hstep_cls ?_ ?_
    · by_cases hv : ver = -1
      · rw [verSeg, if_pos hv, List.nil_append]; rfl
      · rw [verSeg, if_neg hv, List.cons_append]; rfl
    · show matchResourceTail (verSeg state ver ++ ('.' :: extL)) _ = _
      by_cases hv : ver = -1
      · rw [verSeg, if_pos hv, List.nil_append, matchResourceTail_dot]
        have h := verExtTail_reparse g2 g3 g4 none proj stepL state ver extL hsv
          hext_ne hext_cls
        rw [verSeg, if_pos hv, List.nil_append] at h
        exact h
      · rw [verSeg, if_neg hv, List.cons_append]
        refine matchResourceTail_blocked
          ((state.toList ++ natDigits ver.toNat) ++ ('.' :: extL)) _ _ ?_ ?_
        · exact lookVersionStart_verhead state ver ('.' :: extL) hv hsv
        · have h := verExtTail_reparse g2 g3 g4 none proj stepL state ver extL hsv
            hext_ne hext_cls
          rw [verSeg, if_neg hv, List.cons_append] at h
          exact h
  · have hres0 : ¬ res = "" := strToList_ne_nil hres_ne
    rw [show g6Exp res = some res.toList from by rw [g6Exp, if_neg hres0],
      show resSeg res = '_' :: res.toList from by rw [resSeg, if_neg hres0],
      List.cons_append]
    refine reMatchRep1_exact isIdChar 10 stepL
      ('_' :: (res.toList ++ (verSeg state ver ++ ('.' :: extL)))) _ _
      hstep_ne hstep_len hstep_cls rfl ?_
    show matchResourceTail
      ('_' :: (res.toList ++ (verSeg state ver ++ ('.' :: extL)))) _ = _
    refine matchResourceTail_present res.toList (verSeg state ver ++ ('.' :: extL))
      _ _ ?_ hres_ne hres_cls ?_ ?_
    · refine lookVersionStart_append_false res.toList _ hres_ne ?_ hres_look
      by_cases hv : ver = -1
      · right
        exact ⟨'.', extL, by rw [verSeg, if_pos hv, List.nil_append], by decide,
          fun tok htok ch hch => (versionPrefixTokens_chars_vs_sep tok htok ch hch).2⟩
      · right
        exact ⟨'_', (state.toList ++ natDigits ver.toNat) ++ ('.' :: extL),
          by rw [verSeg, if_neg hv, List.cons_append], by decide,
          fun tok htok ch hch => (versionPrefixTokens_chars_vs_sep tok htok ch hch).1⟩
    · by_cases hv : ver = -1
      · rw [verSeg, if_pos hv, List.nil_append]; rfl
      · rw [verSeg, if_neg hv, List.cons_append]; rfl
    · exact verExtTail_reparse g2 g3 g4 (some res.toList) proj stepL state ver extL
        hsv hext_ne hext_cls

theorem matchRamsesName_rebuild_AS (tc : Char) (projL objL stepL : List Char)
    (res state : String) (ver : Int) (extL : List Char)
    (htc : isASChar tc = true)
    (hproj_ne : projL ≠ []) (hproj_len : projL.length ≤ 10)
    (hproj_cls : ∀ ch ∈ projL, isIdChar ch = true)
    (hobj_ne : objL ≠ []) (hobj_len : objL.length ≤ 10)
    (hobj_cls : ∀ ch ∈ objL, isIdChar ch = true)
    (hstep_ne : stepL ≠ []) (hstep_len : stepL.length ≤ 10)
    (hstep_cls : ∀ ch ∈ stepL, isIdChar ch = true)
    (hres : res = "" ∨ (res.toList ≠ [] ∧ (∀ ch ∈ res.toList, isResChar ch = true) ∧
      lookVersionStart versionPrefixTokens res.toList = false))
    (hsv : (state = "" ∧ ver = -1) ∨ (0 ≤ ver ∧ (state = "" ∨
      ∃ tok ∈ versionPrefixTokens, icaseEqList state.toList tok = true)))
    (hext_ne : extL ≠ []) (hext_cls : ∀ ch ∈ extL, isExtChar ch = true) :
    matchRamsesName (projL ++ ('_' :: (tc :: '_' :: (objL ++ ('_' :: (stepL ++
      (resSeg res ++ (verSeg state ver ++ ('.' :: extL))))))))) =
    some (⟨projL, some [tc], some objL, none, stepL, g6Exp res, g7Exp state ver,
      g8Exp ver, extL⟩ : RamsesGroups) := by
  refine reMatchRep1_exact isIdChar 10 projL _ _ _ hproj_ne hproj_len hproj_cls rfl ?_
  show matchTypeBlock (tc :: '_' :: (objL ++ ('_' :: (stepL ++
    (resSeg res ++ (verSeg state ver ++ ('.' :: extL))))))) _ = _
  refine matchTypeBlock_AS tc objL ('_' :: (stepL ++
    (resSeg res ++ (verSeg state ver ++ ('.' :: extL))))) _ _ htc hobj_ne hobj_len
    hobj_cls rfl ?_
  exact stepTail_reparse (some [tc]) (some objL) none projL stepL res state ver extL
    hstep_ne hstep_len hstep_cls hres hsv hext_ne hext_cls

theorem matchRamsesName_rebuild_G (gc : Char) (projL stepL : List Char)
    (res state : String) (ver : Int) (extL : List Char)
    (hgc : isGChar gc = true)
    (hproj_ne : projL ≠ []) (hproj_len : projL.length ≤ 10)
    (hproj_cls : ∀ ch ∈ projL, isIdChar ch = true)
    (hstep_ne : stepL ≠ []) (hstep_len : stepL.length ≤ 10)
    (hstep_cls : ∀ ch ∈ stepL, isIdChar ch = true)
    (hres : res = "" ∨ (res.toList ≠ [] ∧ (∀ ch ∈ res.toList, isResChar ch = true) ∧
      lookVersionStart versionPrefixTokens res.toList = false))
    (hsv : (state = "" ∧ ver = -1) ∨ (0 ≤ ver ∧ (state = "" ∨
      ∃ tok ∈ versionPrefixTokens, icaseEqList state.toList tok = true)))
    (hext_ne : extL ≠ []) (hext_cls : ∀ ch ∈ extL, isExtChar ch = true) :
    matchRamsesName (projL ++ ('_' :: (gc :: '_' :: (stepL ++
      (resSeg res ++ (verSeg state ver ++ ('.' :: extL))))))) =
    some (⟨projL, none, none, some [gc], stepL, g6Exp res, g7Exp state ver,
      g8Exp ver, extL⟩ : RamsesGroups) := by
  refine reMatchRep1_exact isIdChar 10 projL _ _ _ hproj_ne hproj_len hproj_cls rfl ?_
  show matchTypeBlock (gc :: '_' :: (stepL ++
    (resSeg res ++ (verSeg state ver ++ ('.' :: extL))))) _ = _
  refine matchTypeBlock_G gc ('_' :: (stepL ++
    (resSeg res ++ (verSeg state ver ++ ('.' :: extL))))) _ _ hgc ?_
  exact stepTail_reparse none none (some [gc]) projL stepL res state ver extL
    hstep_ne hstep_len hstep_cls hres hsv hext_ne hext_cls

theorem build_toList_AS (p step ext t obj res state : String) (ver : Int) (tc : Char)
    (ht : t = ItemTypeASSET ∨ t = ItemTypeSHOT)
    (htc : t.toList = [tc])
    (hfix : fixResourceStr res = res)
    (hver : ver = -1 ∨ 0 ≤ ver)
    (hext_ne : ¬ ext = "") (hext_dot : strStartsWithDot ext = false) :
    (buildRamsesFileName p step ext t obj res ver state).toList =
      p.toList ++ ('_' :: (tc :: '_' :: (obj.toList ++ ('_' :: (step.toList ++
        (resSeg res ++ (verSeg state ver ++ ('.' :: ext.toList)))))))) := by
  have hu : ("_" : String).toList = ['_'] := rfl
  have hd : ("." : String).toList = ['.'] := rfl
  simp only [buildRamsesFileName, hfix]
  rw [if_pos ht, if_pos hext_ne, hext_dot,
    if_neg (show ¬((false : Bool) = true) by simp)]
  by_cases hres0 : res = ""
  · rw [if_neg (not_not_intro hres0), resSeg, if_pos hres0]
    by_cases hv : ver = -1
    · rw [if_neg (not_not_intro hv), verSeg, if_pos hv]
      simp only [strToList_append, hu, hd, htc, List.append_assoc, List.cons_append,
        List.singleton_append, List.nil_append]
    · have hv' : 0 ≤ ver := hver.resolve_left hv
      rw [if_pos hv, verSeg, if_neg hv, intToStr, if_neg (by omega)]
      simp only [strToList_append, hu, hd, htc, strMk_toList, List.append_assoc,
        List.cons_append, List.singleton_append, List.nil_append]
  · rw [if_pos hres0, resSeg, if_neg hres0]
    by_cases hv : ver = -1
    · rw [if_neg (not_not_intro hv), verSeg, if_pos hv]
      simp only [strToList_append, hu, hd, htc, List.append_assoc, List.cons_append,
        List.singleton_append, List.nil_append]
    · have hv' : 0 ≤ ver := hver.resolve_left hv
      rw [if_pos hv, verSeg, if_neg hv, intToStr, if_neg (by omega)]
      simp only [strToList_append, hu, hd, htc, strMk_toList, List.append_assoc,
        List.cons_append, List.singleton_append, List.nil_append]

theorem build_toList_G (p step ext t res state : String) (obj : String) (ver : Int)
    (gc : Char)
    (ht : ¬ (t = ItemTypeASSET ∨ t = ItemTypeSHOT))
    (htc : t.toList = [gc])
    (hfix : fixResourceStr res = res)
    (hver : ver = -1 ∨ 0 ≤ ver)
    (hext_ne : ¬ ext = "") (hext_dot : strStartsWithDot ext = false) :
    (buildRamsesFileName p step ext t obj res ver state).toList =
      p.toList ++ ('_' :: (gc :: '_' :: (step.toList ++
        (resSeg res ++ (verSeg state ver ++ ('.' :: ext.toList)))))) := by
  have hu : ("_" : String).toList = ['_'] := rfl
  have hd : ("." : String).toList = ['.'] := rfl
  simp only [buildRamsesFileName, hfix]
  rw [if_neg ht, if_pos hext_ne, hext_dot,
    if_neg (show ¬((false : Bool) = true) by simp)]
  by_cases hres0 : res = ""
  · rw [if_neg (not_not_intro hres0), resSeg, if_pos hres0]
    by_cases hv : ver = -1
    · rw [if_neg (not_not_intro hv), verSeg, if_pos hv]
      simp only [strToList_append, hu, hd, htc, List.append_assoc, List.cons_append,
        List.singleton_append, List.nil_append]
    · have hv' : 0 ≤ ver := hver.resolve_left hv
      rw [if_pos hv, verSeg, if_neg hv, intToStr, if_neg (by omega)]
      simp only [strToList_append, hu, hd, htc, strMk_toList, List.append_assoc,
        List.cons_append, List.singleton_append, List.nil_append]
  · rw [if_pos hres0, resSeg, if_neg hres0]
    by_cases hv : ver = -1
    · rw [if_neg (not_not_intro hv), verSeg, if_pos hv]
      simp only [strToList_append, hu, hd, htc, List.append_assoc, List.cons_append,
        List.singleton_append, List.nil_append]
    · have hv' : 0 ≤ ver := hver.resolve_left hv
      rw [if_pos hv, verSeg, if_neg hv, intToStr, if_neg (by omega)]
      simp only [strToList_append, hu, hd, htc, strMk_toList, List.append_assoc,
        List.cons_append, List.singleton_append, List.nil_append]

theorem decomposeRamsesFileName_eq_some (s : String) (g : RamsesGroups)
    (h : matchRamsesName s.toList = some g) :
    decomposeRamsesFileName s = some
      { projectID := String.mk g.g1
        ramType := if (g.g2.map (fun c => String.mk c) = some "A" ||
            g.g2.map (fun c => String.mk c) = some "S" : Bool) then
            g.g2.map (fun c => String.mk c)
          else g.g4.map (fun c => String.mk c)
        objectShortName := if (g.g2.map (fun c => String.mk c) = some "A" ||
            g.g2.map (fun c => String.mk c) = some "S" : Bool) then
            String.mk (g.g3.getD []) else ""
        ramStep := String.mk g.g5
        resourceStr := String.mk (g.g6.getD [])
        state := String.mk (g.g7.getD [])
        version := match g.g8 with | none => -1 | some d => digitsVal d
        extension := String.mk g.g9 } := by
  show (match matchRamsesName s.toList with
    | none => (none : Option RamsesFileBlocks)
    | some g =>
      some
        { projectID := String.mk g.g1
          ramType := if (g.g2.map (fun c => String.mk c) = some "A" ||
              g.g2.map (fun c => String.mk c) = some "S" : Bool) then
              g.g2.map (fun c => String.mk c)
            else g.g4.map (fun c => String.mk c)
          objectShortName := if (g.g2.map (fun c => String.mk c) = some "A" ||
              g.g2.map (fun c => String.mk c) = some "S" : Bool) then
              String.mk (g.g3.getD []) else ""
          ramStep := String.mk g.g5
          resourceStr := String.mk (g.g6.getD [])
          state := String.mk (g.g7.getD [])
          version := match g.g8 with | none => -1 | some d => digitsVal d
          extension := String.mk g.g9 }) = _
  rw [h]

theorem g6Exp_readback (res : String) : String.mk ((g6Exp res).getD []) = res := by
  by_cases h : res = ""
  · subst h; rfl
  · rw [g6Exp, if_neg h]; rfl

theorem g7Exp_readback (state : String) (ver : Int) (hstv : ver = -1 → state = "") :
    String.mk ((g7Exp state ver).getD []) = state := by
  by_cases hv : ver = -1
  · rw [g7Exp, if_pos hv, hstv hv]; rfl
  · rw [g7Exp, if_neg hv]
    by_cases hst : state = ""
    · rw [if_pos hst, hst]; rfl
    · rw [if_neg hst]; rfl

theorem g8Exp_readback (ver : Int) (hver : ver = -1 ∨ 0 ≤ ver) :
    (match g8Exp ver with | none => -1 | some d => digitsVal d) = ver := by
  rcases hver with hv | hv
  · rw [g8Exp, if_pos hv]
    exact hv.symm
  · have hv1 : ¬ ver = -1 := by omega
    rw [g8Exp, if_neg hv1]
    show digitsVal (natDigits ver.toNat) = ver
    rw [digitsVal_natDigits, Int.toNat_of_nonneg hv]

theorem decompose_of_match_AS (s : String) (tc : Char)
    (projL objL stepL extL : List Char) (res state : String) (ver : Int)
    (hm : matchRamsesName s.toList = some ⟨projL, some [tc], some objL, none, stepL,
      g6Exp res, g7Exp state ver, g8Exp ver, extL⟩)
    (hAS : String.mk [tc] = "A" ∨ String.mk [tc] = "S")
    (hver : ver = -1 ∨ 0 ≤ ver)
    (hstv : ver = -1 → state = "") :
    decomposeRamsesFileName s = some ⟨String.mk projL, some (String.mk [tc]),
      String.mk objL, String.mk stepL, res, state, ver, String.mk extL⟩ := by
  rw [decomposeRamsesFileName_eq_some s _ hm]
  have hASb : (String.mk [tc] = "A" || String.mk [tc] = "S" : Bool) = true := by
    rcases hAS with h | h
    · rw [h]; rfl
    · rw [h]; rfl
  simp only [Option.map_some', Option.some.injEq, Option.getD_some,
    RamsesFileBlocks.mk.injEq, hASb, if_true, true_and, and_true]
  exact ⟨g6Exp_readback res, g7Exp_readback state ver hstv, g8Exp_readback ver hver⟩

theorem decompose_of_match_G (s : String) (gc : Char)
    (projL stepL extL : List Char) (res state : String) (ver : Int)
    (hm : matchRamsesName s.toList = some ⟨projL, none, none, some [gc], stepL,
      g6Exp res, g7Exp state ver, g8Exp ver, extL⟩)
    (hver : ver = -1 ∨ 0 ≤ ver)
    (hstv : ver = -1 → state = "") :
    decomposeRamsesFileName s = some ⟨String.mk projL, some (String.mk [gc]),
      "", String.mk stepL, res, state, ver, String.mk extL⟩ := by
  rw [decomposeRamsesFileName_eq_some s _ hm]
  have hGb : ((none : Option String) = some "A" ||
      (none : Option String) = some "S" : Bool) = false := rfl
  simp only [Option.map_some', Option.map_none', Option.some.injEq, Option.getD_some,
    RamsesFileBlocks.mk.injEq, hGb, Bool.false_eq_true, if_false, true_and, and_true]
  exact ⟨g6Exp_readback res, g7Exp_readback state ver hstv, g8Exp_readback ver hver⟩

/-- Re-encoding well-shaped components and decoding again is the
identity. -/
theorem decomposeBuild (c : RamsesFileBlocks) (t : String) (hb : GoodBlocks c t)
    (hdot : strStartsWithDot c.extension = false) :
    decomposeRamsesFileName (buildRamsesFileName c.projectID c.ramStep c.extension t
      c.objectShortName c.resourceStr c.version c.state) = some c := by
  obtain ⟨rt_eq, proj_cls, proj_ne, proj_len, type_ok, step_cls, step_ne, step_len,
    res_ok, sv_ok, ext_cls, ext_ne⟩ := hb
  have hfix : fixResourceStr c.resourceStr = c.resourceStr := by
    rcases res_ok with h0 | ⟨_, hcls, _⟩
    · rw [h0]; rfl
    · exact fixResourceStr_id hcls
  have hver2 : c.version = -1 ∨ 0 ≤ c.version := by
    rcases sv_ok with ⟨_, h0⟩ | ⟨h0, _⟩
    · exact Or.inl h0
    · exact Or.inr h0
  have hstv : c.version = -1 → c.state = "" := by
    intro hv
    rcases sv_ok with ⟨h0, _⟩ | ⟨h0, _⟩
    · exact h0
    · omega
  have hext_ne' : ¬ c.extension = "" := strToList_ne_nil ext_ne
  rcases type_ok with ⟨ht, hobj_cls, hobj_ne, hobj_len⟩ | ⟨⟨gc, hgc_list, hgc⟩, hobj0⟩
  · obtain ⟨tc, htcl, htcAS, htcstr⟩ : ∃ tc, t.toList = [tc] ∧ isASChar tc = true ∧
        (String.mk [tc] = "A" ∨ String.mk [tc] = "S") := by
      rcases ht with rfl | rfl
      · exact ⟨'A', rfl, by decide, Or.inl rfl⟩
      · exact ⟨'S', rfl, by decide, Or.inr rfl⟩
    have httc : t = String.mk [tc] := by
      have h0 := congrArg String.mk htcl
      rw [strToList_mk] at h0
      exact h0
    have hbl := build_toList_AS c.projectID c.ramStep c.extension t c.objectShortName
      c.resourceStr c.state c.version tc ht htcl hfix hver2 hext_ne' hdot
    have hm := matchRamsesName_rebuild_AS tc c.projectID.toList
      c.objectShortName.toList c.ramStep.toList c.resourceStr c.state c.version
      c.extension.toList htcAS proj_ne proj_len proj_cls hobj_ne hobj_len hobj_cls
      step_ne step_len step_cls res_ok sv_ok ext_ne ext_cls
    rw [← hbl] at hm
    rw [decompose_of_match_AS _ tc c.projectID.toList c.objectShortName.toList
      c.ramStep.toList c.extension.toList c.resourceStr c.state c.version hm htcstr
      hver2 hstv]
    rw [show some (String.mk [tc]) = c.ramType from by rw [rt_eq, httc]]
    rfl
  · have httc : t = String.mk [gc] := by
      have h0 := congrArg String.mk hgc_list
      rw [strToList_mk] at h0
      exact h0
    have hnotAS : ¬ (t = ItemTypeASSET ∨ t = ItemTypeSHOT) := by
      rintro (h0 | h0)
      · rw [h0] at hgc_list
        have : gc = 'A' := by
          have := hgc_list.symm
          injection this
        rw [this] at hgc
        exact absurd hgc (by decide)
      · rw [h0] at hgc_list
        have : gc = 'S' := by
          have := hgc_list.symm
          injection this
        rw [this] at hgc
        exact absurd hgc (by decide)
    have hbl := build_toList_G c.projectID c.ramStep c.extension t c.resourceStr
      c.state c.objectShortName c.version gc hnotAS hgc_list hfix hver2 hext_ne' hdot
    have hm := matchRamsesName_rebuild_G gc c.projectID.toList c.ramStep.toList
      c.resourceStr c.state c.version c.extension.toList hgc proj_ne proj_len
      proj_cls step_ne step_len step_cls res_ok sv_ok ext_ne ext_cls
    rw [← hbl] at hm
    rw [decompose_of_match_G _ gc c.projectID.toList c.ramStep.toList
      c.extension.toList c.resourceStr c.state c.version hm hver2 hstv]
    rw [show some (String.mk [gc]) = c.ramType from by rw [rt_eq, httc],
      show ("" : String) = c.objectShortName from hobj0.symm]
    rfl

/-! Inversion lemmas: a successful match determines a split of the input
with the captures in their character classes. -/

theorem reMatchPlusAux_inv {A : Type} (cls : Char → Bool) :
    ∀ (l acc : List Char) (k : List Char → List Char → Option A) (r : A),
      reMatchPlusAux cls acc l k = some r →
      ∃ cap rest, l = cap ++ rest ∧ (∀ c ∈ cap, cls c = true) ∧
        k (acc.reverse ++ cap) rest = some r := by
  intro l
  induction l with
  | nil =>
    intro acc k r h
    exact ⟨[], [], rfl, by simp, by simpa using h⟩
  | cons ch l' ih =>
    intro acc k r h
    by_cases hc : cls ch = true
    · rw [reMatchPlusAux, if_pos hc] at h
      rcases orElseO_inv h with h1 | ⟨-, h2⟩
      · obtain ⟨cap, rest, hl, hcls, hk⟩ := ih (ch :: acc) k r h1
        refine ⟨ch :: cap, rest, by rw [hl, List.cons_append], ?_, ?_⟩
        · intro c hcmem
          rcases List.mem_cons.mp hcmem with rfl | hmem
          · exact hc
          · exact hcls c hmem
        · simpa [List.append_assoc] using hk
      · exact ⟨[], ch :: l', rfl, by simp, by simpa using h2⟩
    · rw [reMatchPlusAux, if_neg hc] at h
      exact ⟨[], ch :: l', rfl, by simp, by simpa using h⟩

theorem reMatchPlus_inv {A : Type} (cls : Char → Bool) (l : List Char)
    (k : List Char → List Char → Option A) (r : A)
    (h : reMatchPlus cls l k = some r) :
    ∃ cap rest, l = cap ++ rest ∧ cap ≠ [] ∧ (∀ c ∈ cap, cls c = true) ∧
      k cap rest = some r := by
  cases l with
  | nil => exact absurd h (by rw [reMatchPlus]; simp)
  | cons ch l' =>
    by_cases hc : cls ch = true
    · rw [reMatchPlus, if_pos hc] at h
      obtain ⟨cap, rest, hl, hcls, hk⟩ := reMatchPlusAux_inv cls l' [ch] k r h
      refine ⟨ch :: cap, rest, by rw [hl, List.cons_append], by simp, ?_, by simpa using hk⟩
      intro c hcmem
      rcases List.mem_cons.mp hcmem with rfl | hmem
      · exact hc
      · exact hcls c hmem
    · rw [reMatchPlus, if_neg hc] at h
      cases h

theorem reMatchRepAux_inv {A : Type} (cls : Char → Bool) :
    ∀ (fuel : Nat) (l acc : List Char) (k : List Char → List Char → Option A) (r : A),
      reMatchRepAux cls fuel acc l k = some r →
      ∃ cap rest, l = cap ++ rest ∧ cap.length ≤ fuel ∧
        (∀ c ∈ cap, cls c = true) ∧ k (acc.reverse ++ cap) rest = some r := by
  intro fuel
  induction fuel with
  | zero =>
    intro l acc k r h
    exact ⟨[], l, rfl, by simp, by simp, by simpa using h⟩
  | succ f ih =>
    intro l acc k r h
    cases l with
    | nil => exact ⟨[], [], rfl, by simp, by simp, by simpa using h⟩
    | cons ch l' =>
      by_cases hc : cls ch = true
      · rw [reMatchRepAux, if_pos hc] at h
        rcases orElseO_inv h with h1 | ⟨-, h2⟩
        · obtain ⟨cap, rest, hl, hlen, hcls, hk⟩ := ih l' (ch :: acc) k r h1
          refine ⟨ch :: cap, rest, by rw [hl, List.cons_append], by simpa using hlen, ?_, ?_⟩
          · intro c hcmem
            rcases List.mem_cons.mp hcmem with rfl | hmem
            · exact hc
            · exact hcls c hmem
          · simpa [List.append_assoc] using hk
        · exact ⟨[], ch :: l', rfl, by simp, by simp, by simpa using h2⟩
      · rw [reMatchRepAux, if_neg hc] at h
        exact ⟨[], ch :: l', rfl, by simp, by simp, by simpa using h⟩

theorem reMatchRep1_inv {A : Type} (cls : Char → Bool) (maxLen : Nat) (l : List Char)
    (k : List Char → List Char → Option A) (r : A) (hmax : 1 ≤ maxLen)
    (h : reMatchRep1 cls maxLen l k = some r) :
    ∃ cap rest, l = cap ++ rest ∧ cap ≠ [] ∧ cap.length ≤ maxLen ∧
      (∀ c ∈ cap, cls c = true) ∧ k cap rest = some r := by
  cases l with
  | nil => exact absurd h (by rw [reMatchRep1]; simp)
  | cons ch l' =>
    by_cases hc : cls ch = true
    · rw [reMatchRep1, if_pos hc] at h
      obtain ⟨cap, rest, hl, hlen, hcls, hk⟩ := reMatchRepAux_inv cls (maxLen - 1) l' [ch] k r h
      refine ⟨ch :: cap, rest, by rw [hl, List.cons_append], by simp, by simp; omega, ?_, by simpa using hk⟩
      intro c hcmem
      rcases List.mem_cons.mp hcmem with rfl | hmem
      · exact hc
      · exact hcls c hmem
    · rw [reMatchRep1, if_neg hc] at h
      cases h

theorem reMatchAlt_inv {A : Type} :
    ∀ (toks : List (List Char)) (l : List Char)
      (k : List Char → List Char → Option A) (r : A),
      reMatchAlt toks l k = some r →
      ∃ tok, tok ∈ toks ∧ ∃ cap rest, icasePrefix tok l = some (cap, rest) ∧
        k cap rest = some r := by
  intro toks
  induction toks with
  | nil => intro l k r h; cases h
  | cons t ts ih =>
    intro l k r h
    rw [reMatchAlt] at h
    cases hp : icasePrefix t l with
    | none =>
      rw [hp] at h
      obtain ⟨tok, htok, hrest⟩ := ih l k r h
      exact ⟨tok, List.mem_cons_of_mem _ htok, hrest⟩
    | some p =>
      obtain ⟨cap, rest⟩ := p
      rw [hp] at h
      rcases orElseO_inv h with h1 | ⟨-, h2⟩
      · exact ⟨t, by simp, cap, rest, hp, h1⟩
      · obtain ⟨tok, htok, hrest⟩ := ih l k r h2
        exact ⟨tok, List.mem_cons_of_mem _ htok, hrest⟩

theorem matchTypeBlock_inv (l : List Char)
    (k : Option (List Char) → Option (List Char) → Option (List Char) →
      List Char → Option RamsesGroups) (r : RamsesGroups)
    (h : matchTypeBlock l k = some r) :
    (∃ tc objL rest, l = tc :: '_' :: (objL ++ rest) ∧ isASChar tc = true ∧
      objL ≠ [] ∧ objL.length ≤ 10 ∧ (∀ c ∈ objL, isIdChar c = true) ∧
      k (some [tc]) (some objL) none rest = some r) ∨
    (∃ gc l2, l = gc :: l2 ∧ isGChar gc = true ∧
      k none none (some [gc]) l2 = some r) := by
  rcases orElseO_inv h with hA | ⟨-, hB⟩
  · left
    split at hA
    next c l2 =>
      split at hA
      next hc =>
        split at hA
        next l3 =>
          obtain ⟨objL, rest, hl3, hone, holen, hocls, hk⟩ :=
            reMatchRep1_inv isIdChar 10 l3 _ r (by omega) hA
          exact ⟨c, objL, rest, by rw [hl3], hc, hone, holen, hocls, hk⟩
        next => cases hA
      next => cases hA
    next => cases hA
  · right
    split at hB
    next c l2 =>
      split at hB
      next hc => exact ⟨c, l2, rfl, hc, hB⟩
      next => cases hB
    next => cases hB

theorem matchResourceTail_inv (l : List Char)
    (k : Option (List Char) → List Char → Option RamsesGroups) (r : RamsesGroups)
    (h : matchResourceTail l k = some r) :
    (∃ resL rest, l = '_' :: (resL ++ rest) ∧
      lookVersionStart versionPrefixTokens (resL ++ rest) = false ∧
      resL ≠ [] ∧ (∀ c ∈ resL, isResChar c = true) ∧
      k (some resL) rest = some r) ∨
    k none l = some r := by
  rcases orElseO_inv h with hA | ⟨-, hB⟩
  · left
    split at hA
    next l2 =>
      split at hA
      next => cases hA
      next hlook =>
        obtain ⟨resL, rest, hl2, hne, hcls, hk⟩ := reMatchPlus_inv isResChar l2 _ r hA
        subst hl2
        exact ⟨resL, rest, rfl, by simpa using hlook, hne, hcls, hk⟩
    next => cases hA
  · exact Or.inr hB

theorem matchVersionTail_inv (l : List Char)
    (k : Option (List Char) → Option (List Char) → List Char → Option RamsesGroups)
    (r : RamsesGroups)
    (h : matchVersionTail l k = some r) :
    (∃ sL dL rest tok, l = '_' :: (sL ++ (dL ++ rest)) ∧
      tok ∈ versionPrefixTokens ∧ icaseEqList sL tok = true ∧
      dL ≠ [] ∧ (∀ c ∈ dL, isDigitChar c = true) ∧
      k (some sL) (some dL) rest = some r) ∨
    (∃ dL rest, l = '_' :: (dL ++ rest) ∧ dL ≠ [] ∧
      (∀ c ∈ dL, isDigitChar c = true) ∧ k none (some dL) rest = some r) ∨
    k none none l = some r := by
  rcases orElseO_inv h with hA | ⟨-, hB⟩
  · split at hA
    next l2 =>
      rcases orElseO_inv hA with hAlt | ⟨-, hDig⟩
      · left
        obtain ⟨tok, htok, sL, rest0, hpre, hk1⟩ := reMatchAlt_inv versionPrefixTokens l2 _ r hAlt
        obtain ⟨hl2, hic⟩ := icasePrefix_inv tok l2 sL rest0 hpre
        obtain ⟨dL, rest, hrest0, hdne, hdcls, hk2⟩ := reMatchPlus_inv isDigitChar rest0 _ r hk1
        subst hl2
        subst hrest0
        exact ⟨sL, dL, rest, tok, rfl, htok, hic, hdne, hdcls, hk2⟩
      · right; left
        obtain ⟨dL, rest, hl2, hdne, hdcls, hk2⟩ := reMatchPlus_inv isDigitChar l2 _ r hDig
        subst hl2
        exact ⟨dL, rest, rfl, hdne, hdcls, hk2⟩
    next => cases hA
  · exact Or.inr (Or.inr hB)

theorem verExtFacts_of_match (projL stepL : List Char)
    (g2v g3v g4v g6v : Option (List Char)) (rest6 : List Char) (g : RamsesGroups)
    (hk4 : matchVersionTail rest6 (fun g7 g8 r7 =>
      match r7 with
      | '.' :: r8 =>
        reMatchPlus isExtChar r8 (fun extCap r9 =>
          if reDollar r9 then
            some (⟨projL, g2v, g3v, g4v, stepL, g6v, g7, g8, extCap⟩ : RamsesGroups)
          else none)
      | _ => none) = some g) :
    ∃ g7v g8v extL,
      g = ⟨projL, g2v, g3v, g4v, stepL, g6v, g7v, g8v, extL⟩ ∧
      ((g7v = none ∧ g8v = none) ∨
       (∃ dL, g8v = some dL ∧ 0 ≤ digitsVal dL ∧
        (g7v = none ∨ ∃ sL tok, g7v = some sL ∧ tok ∈ versionPrefixTokens ∧
          icaseEqList sL tok = true))) ∧
      extL ≠ [] ∧ (∀ c ∈ extL, isExtChar c = true) := by
  rcases matchVersionTail_inv rest6 _ g hk4 with
    ⟨sL, dL, rest, tok, hr6, htok, hic, hdne, hdcls, hk5⟩ |
    ⟨dL, rest, hr6, hdne, hdcls, hk5⟩ | hk5
  · split at hk5
    next r8 =>
      obtain ⟨extL, r9, hr8, hextne, hextcls, hk6⟩ := reMatchPlus_inv isExtChar r8 _ g hk5
      split at hk6
      · injection hk6 with hk6
        exact ⟨some sL, some dL, extL, hk6.symm,
          Or.inr ⟨dL, rfl, digitsVal_nonneg dL, Or.inr ⟨sL, tok, rfl, htok, hic⟩⟩,
          hextne, hextcls⟩
      · cases hk6
    next => cases hk5
  · split at hk5
    next r8 =>
      obtain ⟨extL, r9, hr8, hextne, hextcls, hk6⟩ := reMatchPlus_inv isExtChar r8 _ g hk5
      split at hk6
      · injection hk6 with hk6
        exact ⟨none, some dL, extL, hk6.symm,
          Or.inr ⟨dL, rfl, digitsVal_nonneg dL, Or.inl rfl⟩, hextne, hextcls⟩
      · cases hk6
    next => cases hk5
  · split at hk5
    next r8 =>
      obtain ⟨extL, r9, hr8, hextne, hextcls, hk6⟩ := reMatchPlus_inv isExtChar r8 _ g hk5
      split at hk6
      · injection hk6 with hk6
        exact ⟨none, none, extL, hk6.symm, Or.inl ⟨rfl, rfl⟩, hextne, hextcls⟩
      · cases hk6
    next => cases hk5

theorem tailFacts_of_match (projL stepL : List Char)
    (g2v g3v g4v : Option (List Char)) (rest5 : List Char) (g : RamsesGroups)
    (hk3 : matchResourceTail rest5 (fun g6 r6 =>
      matchVersionTail r6 (fun g7 g8 r7 =>
        match r7 with
        | '.' :: r8 =>
          reMatchPlus isExtChar r8 (fun extCap r9 =>
            if reDollar r9 then
              some (⟨projL, g2v, g3v, g4v, stepL, g6, g7, g8, extCap⟩ : RamsesGroups)
            else none)
        | _ => none)) = some g) :
    ∃ g6v g7v g8v extL,
      g = ⟨projL, g2v, g3v, g4v, stepL, g6v, g7v, g8v, extL⟩ ∧
      (g6v = none ∨ (∃ resL, g6v = some resL ∧ resL ≠ [] ∧
        (∀ c ∈ resL, isResChar c = true) ∧
        lookVersionStart versionPrefixTokens resL = false)) ∧
      ((g7v = none ∧ g8v = none) ∨
       (∃ dL, g8v = some dL ∧ 0 ≤ digitsVal dL ∧
        (g7v = none ∨ ∃ sL tok, g7v = some sL ∧ tok ∈ versionPrefixTokens ∧
          icaseEqList sL tok = true))) ∧
      extL ≠ [] ∧ (∀ c ∈ extL, isExtChar c = true) := by
  rcases matchResourceTail_inv rest5 _ g hk3 with
    ⟨resL, rest6, hr5, hlook, hresne, hrescls, hk4⟩ | hk4
  · obtain ⟨g7v, g8v, extL, hg, hver, hextne, hextcls⟩ :=
      verExtFacts_of_match projL stepL g2v g3v g4v (some resL) rest6 g hk4
    exact ⟨some resL, g7v, g8v, extL, hg,
      Or.inr ⟨resL, rfl, hresne, hrescls,
        lookVersionStart_of_append_false versionPrefixTokens resL rest6 hlook⟩,
      hver, hextne, hextcls⟩
  · obtain ⟨g7v, g8v, extL, hg, hver, hextne, hextcls⟩ :=
      verExtFacts_of_match projL stepL g2v g3v g4v none rest5 g hk4
    exact ⟨none, g7v, g8v, extL, hg, Or.inl rfl, hver, hextne, hextcls⟩

theorem decomposeRamsesFileName_eq_none (s : String)
    (h : matchRamsesName s.toList = none) : decomposeRamsesFileName s = none := by
  show (match matchRamsesName s.toList with
    | none => (none : Option RamsesFileBlocks)
    | some g =>
      some
        { projectID := String.mk g.g1
          ramType := if (g.g2.map (fun c => String.mk c) = some "A" ||
              g.g2.map (fun c => String.mk c) = some "S" : Bool) then
              g.g2.map (fun c => String.mk c)
            else g.g4.map (fun c => String.mk c)
          objectShortName := if (g.g2.map (fun c => String.mk c) = some "A" ||
              g.g2.map (fun c => String.mk c) = some "S" : Bool) then
              String.mk (g.g3.getD []) else ""
          ramStep := String.mk g.g5
          resourceStr := String.mk (g.g6.getD [])
          state := String.mk (g.g7.getD [])
          version := match g.g8 with | none => -1 | some d => digitsVal d
          extension := String.mk g.g9 }) = _
  rw [h]

theorem goodBlocks_assemble (c : RamsesFileBlocks) (t : String)
    (projL stepL extL : List Char) (g6v g7v g8v : Option (List Char))
    (hproj : c.projectID = String.mk projL)
    (hstep : c.ramStep = String.mk stepL)
    (hext : c.extension = String.mk extL)
    (hresq : c.resourceStr = String.mk (g6v.getD []))
    (hstate : c.state = String.mk (g7v.getD []))
    (hv_none : g8v = none → c.version = -1)
    (hv_some : ∀ dL, g8v = some dL → c.version = digitsVal dL)
    (htype : ((t = "A" ∨ t = "S") ∧ c.ramType = some t ∧
        ∃ objL2, c.objectShortName = String.mk objL2 ∧ objL2 ≠ [] ∧
          objL2.length ≤ 10 ∧ (∀ ch ∈ objL2, isIdChar ch = true)) ∨
      ((∃ gc, t.toList = [gc] ∧ isGChar gc = true) ∧ c.ramType = some t ∧
        c.objectShortName = ""))
    (hpne : projL ≠ []) (hplen : projL.length ≤ 10)
    (hpcls : ∀ ch ∈ projL, isIdChar ch = true)
    (hsne : stepL ≠ []) (hslen : stepL.length ≤ 10)
    (hscls : ∀ ch ∈ stepL, isIdChar ch = true)
    (hresf : g6v = none ∨ (∃ resL, g6v = some resL ∧ resL ≠ [] ∧
      (∀ ch ∈ resL, isResChar ch = true) ∧
      lookVersionStart versionPrefixTokens resL = false))
    (hverf : (g7v = none ∧ g8v = none) ∨
      (∃ dL, g8v = some dL ∧ 0 ≤ digitsVal dL ∧
        (g7v = none ∨ ∃ sL tok, g7v = some sL ∧ tok ∈ versionPrefixTokens ∧
          icaseEqList sL tok = true)))
    (hextne : extL ≠ []) (hextcls : ∀ ch ∈ extL, isExtChar ch = true) :
    GoodBlocks c t := by
  refine ⟨?_, ?_, ?_, ?_, ?_, ?_, ?_, ?_, ?_, ?_, ?_, ?_⟩
  · rcases htype with ⟨_, h, _⟩ | ⟨_, h, _⟩
    · exact h
    · exact h
  · rw [hproj]; exact hpcls
  · rw [hproj]; exact hpne
  · rw [hproj]; exact hplen
  · rcases htype with ⟨h1, _, objL2, ho, h2, h3, h4⟩ | ⟨h1, _, h2⟩
    · exact Or.inl ⟨h1, by rw [ho]; exact h4, by rw [ho]; exact h2,
        by rw [ho]; exact h3⟩
    · exact Or.inr ⟨h1, h2⟩
  · rw [hstep]; exact hscls
  · rw [hstep]; exact hsne
  · rw [hstep]; exact hslen
  · rcases hresf with h0 | ⟨resL, h0, hne, hcls, hlook⟩
    · left; rw [hresq, h0]; rfl
    · right
      rw [hresq, h0]
      exact ⟨hne, hcls, hlook⟩
  · rcases hverf with ⟨h7, h8⟩ | ⟨dL, h8, hnn, hst⟩
    · left
      exact ⟨by rw [hstate, h7]; rfl, hv_none h8⟩
    · right
      constructor
      · rw [hv_some dL h8]; exact hnn
      · rcases hst with h7 | ⟨sL, tok, h7, htok, hic⟩
        · left; rw [hstate, h7]; rfl
        · right
          exact ⟨tok, htok, by rw [hstate, h7]; exact hic⟩
  · rw [hext]; exact hextcls
  · rw [hext]; exact hextne

/-- Every successful decomposition with a present type marker yields
well-shaped components. -/
theorem goodBlocks_of_decompose (x : String) (c : RamsesFileBlocks) (t : String)
    (hdec : decomposeRamsesFileName x = some c)
    (ht : c.ramType = some t) : GoodBlocks c t := by
  cases hm : matchRamsesName x.toList with
  | none =>
    rw [decomposeRamsesFileName_eq_none x hm] at hdec
    cases hdec
  | some g =>
    rw [decomposeRamsesFileName_eq_some x g hm] at hdec
    injection hdec with hdec
    obtain ⟨projL, rest1, hx, hpne, hplen, hpcls, hk1⟩ :=
      reMatchRep1_inv isIdChar 10 x.toList _ g (by omega) hm
    split at hk1
    next r2 =>
      rcases matchTypeBlock_inv r2 _ g hk1 with
        ⟨tc, objL, rest3, hr2, htc, hone, holen, hocls, hk2⟩ |
        ⟨gc, rest3, hr2, hgc, hk2⟩
      · split at hk2
        next r4 =>
          obtain ⟨stepL, rest5, hr4, hsne, hslen, hscls, hk3⟩ :=
            reMatchRep1_inv isIdChar 10 r4 _ g (by omega) hk2
          obtain ⟨g6v, g7v, g8v, extL, hg, hresf, hverf, hextne, hextcls⟩ :=
            tailFacts_of_match projL stepL (some [tc]) (some objL) none rest5 g hk3
          subst hg
          have hproj : c.projectID = String.mk projL :=
            (congrArg RamsesFileBlocks.projectID hdec).symm
          have hstep : c.ramStep = String.mk stepL :=
            (congrArg RamsesFileBlocks.ramStep hdec).symm
          have hext : c.extension = String.mk extL :=
            (congrArg RamsesFileBlocks.extension hdec).symm
          have hresq : c.resourceStr = String.mk (g6v.getD []) :=
            (congrArg RamsesFileBlocks.resourceStr hdec).symm
          have hstate : c.state = String.mk (g7v.getD []) :=
            (congrArg RamsesFileBlocks.state hdec).symm
          have hv_none : g8v = none → c.version = -1 := by
            intro h8
            subst h8
            exact (congrArg RamsesFileBlocks.version hdec).symm
          have hv_some : ∀ dL, g8v = some dL → c.version = digitsVal dL := by
            intro dL h8
            subst h8
            exact (congrArg RamsesFileBlocks.version hdec).symm
          have hrt : c.ramType = (if ((some (String.mk [tc]) = some "A" : Bool) ||
              (some (String.mk [tc]) = some "S" : Bool)) = true then
              some (String.mk [tc]) else none) :=
            (congrArg RamsesFileBlocks.ramType hdec).symm
          have hobj : c.objectShortName =
              (if ((some (String.mk [tc]) = some "A" : Bool) ||
              (some (String.mk [tc]) = some "S" : Bool)) = true then
              String.mk objL else "") :=
            (congrArg RamsesFileBlocks.objectShortName hdec).symm
          by_cases hAS : String.mk [tc] = "A" ∨ String.mk [tc] = "S"
          · have hb : ((some (String.mk [tc]) = some "A" : Bool) ||
                (some (String.mk [tc]) = some "S" : Bool)) = true := by
              rcases hAS with h | h
              · simp [h]
              · simp [h]
            rw [if_pos hb] at hrt
            rw [if_pos hb] at hobj
            have ht2 := ht
            rw [hrt] at ht2
            injection ht2 with ht2
            refine goodBlocks_assemble c t projL stepL extL g6v g7v g8v hproj hstep
              hext hresq hstate hv_none hv_some ?_ hpne hplen hpcls hsne hslen hscls hresf
              hverf hextne hextcls
            exact Or.inl ⟨by rw [← ht2]; exact hAS, ht,
              ⟨objL, hobj, hone, holen, hocls⟩⟩
          · have hb : ((some (String.mk [tc]) = some "A" : Bool) ||
                (some (String.mk [tc]) = some "S" : Bool)) = false := by
              push_neg at hAS
              simp [hAS.1, hAS.2]
            rw [hb, if_neg (show ¬((false : Bool) = true) by simp)] at hrt
            rw [hrt] at ht
            cases ht
        next => cases hk2
      · split at hk2
        next r4 =>
          obtain ⟨stepL, rest5, hr4, hsne, hslen, hscls, hk3⟩ :=
            reMatchRep1_inv isIdChar 10 r4 _ g (by omega) hk2
          obtain ⟨g6v, g7v, g8v, extL, hg, hresf, hverf, hextne, hextcls⟩ :=
            tailFacts_of_match projL stepL none none (some [gc]) rest5 g hk3
          subst hg
          have hproj : c.projectID = String.mk projL :=
            (congrArg RamsesFileBlocks.projectID hdec).symm
          have hstep : c.ramStep = String.mk stepL :=
            (congrArg RamsesFileBlocks.ramStep hdec).symm
          have hext : c.extension = String.mk extL :=
            (congrArg RamsesFileBlocks.extension hdec).symm
          have hresq : c.resourceStr = String.mk (g6v.getD []) :=
            (congrArg RamsesFileBlocks.resourceStr hdec).symm
          have hstate : c.state = String.mk (g7v.getD []) :=
            (congrArg RamsesFileBlocks.state hdec).symm
          have hv_none : g8v = none → c.version = -1 := by
            intro h8
            subst h8
            exact (congrArg RamsesFileBlocks.version hdec).symm
          have hv_some : ∀ dL, g8v = some dL → c.version = digitsVal dL := by
            intro dL h8
            subst h8
            exact (congrArg RamsesFileBlocks.version hdec).symm
          have hrt : c.ramType = some (String.mk [gc]) :=
            (congrArg RamsesFileBlocks.ramType hdec).symm
          have hobj : c.objectShortName = "" :=
            (congrArg RamsesFileBlocks.objectShortName hdec).symm
          have ht2 := ht
          rw [hrt] at ht2
          injection ht2 with ht2
          refine goodBlocks_assemble c t projL stepL extL g6v g7v g8v hproj hstep
            hext hresq hstate hv_none hv_some ?_ hpne hplen hpcls hsne hslen hscls hresf
            hverf hextne hextcls
          exact Or.inr ⟨⟨gc, by rw [← ht2]; rfl, hgc⟩, ht, hobj⟩
        next => cases hk2
    next => cases hk1

/-- C1 (counterexample): the round-trip law fails as stated.  The name
`FPE_G_MOD..gz` is decoded successfully, with extension `.gz` (the
extension class accepts dots, and the literal dot of the pattern matches
the first of the two); re-encoding appends the extension without a dot
separator because it already starts with one, producing `FPE_G_MOD.gz`,
which decodes to extension `gz` — different components, so
`decode(encode(decode(x))) ≠ decode(x)`. -/
theorem decomposeBuild_roundTrip_cex :
    decomposeRamsesFileName "FPE_G_MOD..gz" =
      some ⟨"FPE", some "G", "", "MOD", "", "", -1, ".gz"⟩ ∧
    buildRamsesFileName "FPE" "MOD" ".gz" "G" "" "" (-1) "" = "FPE_G_MOD.gz" ∧
    decomposeRamsesFileName "FPE_G_MOD.gz" =
      some ⟨"FPE", some "G", "", "MOD", "", "", -1, "gz"⟩ ∧
    ((⟨"FPE", some "G", "", "MOD", "", "", -1, "gz"⟩ : RamsesFileBlocks) ≠
      ⟨"FPE", some "G", "", "MOD", "", "", -1, ".gz"⟩) := by
  refine ⟨?_, ?_, ?_, ?_⟩
  · rfl
  · rfl
  · rfl
  · decide

/-- C1 (amended): for every string on which the decoder succeeds with a
present type marker (`ramType` not `None`, otherwise the re-encoding
raises `TypeError`) and whose decoded extension does not itself start
with a dot, re-encoding the decoded components — the decoded state
passed as the version prefix — and decoding again returns exactly the
original components. -/
theorem decomposeBuild_roundTrip (x : String) (c : RamsesFileBlocks) (t : String)
    (hdec : decomposeRamsesFileName x = some c)
    (ht : c.ramType = some t)
    (hext : strStartsWithDot c.extension = false) :
    decomposeRamsesFileName (buildRamsesFileName c.projectID c.ramStep c.extension t
      c.objectShortName c.resourceStr c.version c.state) = some c :=
  decomposeBuild c t (goodBlocks_of_decompose x c t hdec ht) hext

/-- C1 (witness): the amended round trip at a concrete name with all
optional blocks present; the version is re-rendered without its leading
zeroes but decodes to the same number. -/
theorem decomposeBuild_roundTrip_witness :
    decomposeRamsesFileName "FPE_A_TRI_MOD_some-res_v003.blend" =
      some ⟨"FPE", some "A", "TRI", "MOD", "some-res", "v", 3, "blend"⟩ ∧
    (⟨"FPE", some "A", "TRI", "MOD", "some-res", "v", 3, "blend"⟩ :
        RamsesFileBlocks).ramType = some "A" ∧
    strStartsWithDot "blend" = false ∧
    decomposeRamsesFileName
      (buildRamsesFileName "FPE" "MOD" "blend" "A" "TRI" "some-res" 3 "v") =
      some ⟨"FPE", some "A", "TRI", "MOD", "some-res", "v", 3, "blend"⟩ :=
  ⟨rfl, rfl, rfl,
    decomposeBuild_roundTrip "FPE_A_TRI_MOD_some-res_v003.blend"
      ⟨"FPE", some "A", "TRI", "MOD", "some-res", "v", 3, "blend"⟩ "A" rfl rfl rfl⟩
